import Mathlib

/-!
Verification of the dual-Dijkstra routing core of the street-grid route
calculator (main.py): the hand-written Dijkstra implementation
`find_shortest_path_dijkstra`, the scenario arbitration in `on_button_click`,
the graph reduction that removes a committed path's edges, the defensive cost
recomputation `get_path_cost_from_original_graph`, and the departure
synchronization directive.

Modelling conventions:
* networkx nodes are modelled as natural numbers (`Node`); the source's nodes
  are pairs of small naturals ordered lexicographically, and nothing in the
  routing core depends on their structure beyond decidable equality and a
  total order for heap tie-breaking.
* An undirected networkx graph is a list of nodes plus a list of weighted
  undirected edge records.  `Graph.WF` records the invariants networkx
  guarantees by construction: node keys are unique and every edge endpoint is
  a node of the graph (networkx add_edge inserts endpoints as nodes).
* Edge weights (minutes) are naturals; the Python float infinity is the `⊤`
  of `Cost := WithTop ℕ`.
* The Python dict reads `distances[x]` are modelled as reads of a total
  function together with a node-set membership guard exactly where the
  dict's key set (which equals the node set) does not provably contain the
  key: the read `distances[end]` after the main loop.  A failed read (a
  Python KeyError) is the `.error ()` result of `find_shortest_path_dijkstra`.
* heapq pops the lexicographically least (cost, node) tuple; the heap is
  modelled as the list of its elements and `heappop` extracts the least
  element, which is extensionally the same behaviour.
* The path-reconstruction while loop is given fuel `nodes.length + 1`; the
  `.outOfFuel` result marks states on which the Python loop would not
  terminate, and it is proved unreachable for the states the algorithm
  produces.
-/

namespace DualRoute

/-- Nodes of the street grid.  The source uses pairs (calle, carrera); they
are modelled by naturals with decidable equality and a total order. -/
abbrev Node := ℕ

/-- Costs: finite minutes or the Python float infinity. -/
abbrev Cost := WithTop ℕ

/-- An undirected weighted graph: the networkx node set (in insertion order)
and the undirected weighted edge records. -/
structure Graph where
  nodes : List Node
  edges : List (Node × Node × ℕ)
deriving DecidableEq

/-- Whether an undirected edge record joins `u` and `v` (in either stored
orientation). -/
def edgeMatches (u v : Node) (e : Node × Node × ℕ) : Bool :=
  (e.1 == u && e.2.1 == v) || (e.1 == v && e.2.1 == u)

/-- networkx `graph.has_edge(u, v)` on an undirected graph. -/
def Graph.hasEdge (g : Graph) (u v : Node) : Prop :=
  ∃ e ∈ g.edges, edgeMatches u v e = true

instance (g : Graph) (u v : Node) : Decidable (g.hasEdge u v) :=
  List.decidableBEx _ g.edges

/-- networkx `graph[u][v]['weight']` as an optional lookup. -/
def Graph.weight? (g : Graph) (u v : Node) : Option ℕ :=
  (g.edges.find? (edgeMatches u v)).map (fun e => e.2.2)

/-- The weight of the edge between `u` and `v`; meaningful only when
`g.hasEdge u v` holds (the source always guards the lookup). -/
def Graph.wt (g : Graph) (u v : Node) : ℕ :=
  (g.weight? u v).getD 0

/-- networkx `graph.neighbors(u)` on an undirected graph: the opposite
endpoint of every edge record incident to `u`. -/
def Graph.neighbors (g : Graph) (u : Node) : List Node :=
  g.edges.filterMap (fun e =>
    if e.1 = u then some e.2.1 else if e.2.1 = u then some e.1 else none)

/-- Every node mentioned by the graph: node keys and edge endpoints.  Used
only as the support of the termination measure. -/
def Graph.allNodes (g : Graph) : List Node :=
  (g.nodes ++ g.edges.flatMap (fun e => [e.1, e.2.1])).dedup

/-- The structural invariants a networkx graph satisfies by construction:
the node keys are distinct and every edge endpoint is a node. -/
def Graph.WF (g : Graph) : Prop :=
  g.nodes.Nodup ∧ ∀ e ∈ g.edges, e.1 ∈ g.nodes ∧ e.2.1 ∈ g.nodes

instance (g : Graph) : Decidable g.WF :=
  inferInstanceAs (Decidable (g.nodes.Nodup ∧
    ∀ e ∈ g.edges, e.1 ∈ g.nodes ∧ e.2.1 ∈ g.nodes))

/-- Boolean adjacency-chain check, giving a kernel-computable decision
procedure for `List.Chain' g.hasEdge`. -/
def chainB (g : Graph) : List Node → Bool
  | u :: v :: rest => decide (g.hasEdge u v) && chainB g (v :: rest)
  | _ => true

theorem chainB_iff (g : Graph) :
    ∀ l : List Node, chainB g l = true ↔ l.Chain' g.hasEdge := by
  intro l
  induction l with
  | nil => simp [chainB]
  | cons u rest ih =>
    cases rest with
    | nil => simp [chainB]
    | cons v r =>
      rw [show chainB g (u :: v :: r) =
        (decide (g.hasEdge u v) && chainB g (v :: r)) from rfl]
      rw [Bool.and_eq_true, decide_eq_true_iff, List.chain'_cons]
      exact and_congr Iff.rfl ih

instance (g : Graph) (l : List Node) : Decidable (l.Chain' g.hasEdge) :=
  decidable_of_iff (chainB g l = true) (chainB_iff g l)

/-- A walk (the specification's Path): a nonempty node sequence from `s` to
`t` whose consecutive pairs are adjacent in `g`. -/
def IsWalk (g : Graph) (s t : Node) (p : List Node) : Prop :=
  p ≠ [] ∧ p.head? = some s ∧ p.getLast? = some t ∧ p.Chain' g.hasEdge

instance (g : Graph) (s t : Node) (p : List Node) : Decidable (IsWalk g s t p) :=
  inferInstanceAs (Decidable (p ≠ [] ∧ p.head? = some s ∧ p.getLast? = some t ∧
    p.Chain' g.hasEdge))

/-- Whether `t` is reachable from `s` in `g` by some walk. -/
def Reachable (g : Graph) (s t : Node) : Prop :=
  ∃ p, IsWalk g s t p

/-- The total weight of a node sequence: the sum of the weights of its
consecutive pairs. -/
def walkWeight (g : Graph) : List Node → ℕ
  | u :: v :: rest => g.wt u v + walkWeight g (v :: rest)
  | _ => 0

/-- Python `zip(path, path[1:])`: the consecutive pairs of a node list. -/
def consPairs (p : List Node) : List (Node × Node) :=
  p.zip p.tail

/-- The state of the Dijkstra main loop: the `distances` dict (whose key set
is the node set; reads at provably present keys are total-function reads),
the `predecessors` dict (`Option` values, matching the Python None), and
the heapq priority queue as the list of its (cost, node) entries. -/
structure DijkstraState where
  dist : Node → Cost
  pred : Node → Option Node
  queue : List (ℕ × Node)

/-- The least entry of a nonempty heap prefix under the Python tuple
(lexicographic) order. -/
def heapMin2 : (ℕ × Node) → List (ℕ × Node) → (ℕ × Node)
  | e, [] => e
  | e, f :: fs =>
    let m := heapMin2 f fs
    if e.1 < m.1 ∨ (e.1 = m.1 ∧ e.2 ≤ m.2) then e else m

/-- The least entry of the heap under the Python tuple (lexicographic)
order, or `none` when the heap is empty. -/
def heapMin : List (ℕ × Node) → Option (ℕ × Node)
  | [] => none
  | e :: es => some (heapMin2 e es)

/-- heapq.heappop: extract the least entry, returning it together with the
remaining entries. -/
def heappop (q : List (ℕ × Node)) : Option ((ℕ × Node) × List (ℕ × Node)) :=
  (heapMin q).map (fun m => (m, q.erase m))

/-- One relaxation of the edge from the extracted node `u₀` (extracted with
cost `c₀`) to the neighbor `v`: lines 61-78 of the source.  The `has_edge`
guard mirrors line 63; on improvement the distance and predecessor entries
for `v` are overwritten and `(c₀ + w, v)` is pushed. -/
def relaxNeighbor (g : Graph) (u₀ : Node) (c₀ : ℕ) (st : DijkstraState)
    (v : Node) : DijkstraState :=
  if g.hasEdge u₀ v then
    if ((c₀ + g.wt u₀ v : ℕ) : Cost) < st.dist v then
      ⟨fun x => if x = v then ((c₀ + g.wt u₀ v : ℕ) : Cost) else st.dist x,
       fun x => if x = v then some u₀ else st.pred x,
       st.queue ++ [(c₀ + g.wt u₀ v, v)]⟩
    else st
  else st

/-- The relaxation pass over all neighbors of the extracted node. -/
def relaxAll (g : Graph) (u₀ : Node) (c₀ : ℕ) (st : DijkstraState) :
    DijkstraState :=
  (g.neighbors u₀).foldl (relaxNeighbor g u₀ c₀) st

/-- Number of nodes whose tentative distance is still infinite; first
component of the termination measure. -/
def topCount (g : Graph) (dist : Node → Cost) : ℕ :=
  g.allNodes.countP (fun v => decide (dist v = ⊤))

/-- Sum of the finite tentative distances; second component of the
termination measure. -/
def finSum (g : Graph) (dist : Node → Cost) : ℕ :=
  (g.allNodes.map (fun v => (dist v).untop' 0)).sum

/-- Strict lexicographic decrease of the distance part of the termination
measure. -/
def distLex (g : Graph) (d' d : Node → Cost) : Prop :=
  topCount g d' < topCount g d ∨
    (topCount g d' = topCount g d ∧ finSum g d' < finSum g d)

theorem distLex_trans {g : Graph} {d₁ d₂ d₃ : Node → Cost}
    (h₁ : distLex g d₁ d₂) (h₂ : distLex g d₂ d₃) : distLex g d₁ d₃ := by
  rcases h₁ with h₁ | ⟨h₁e, h₁s⟩ <;> rcases h₂ with h₂ | ⟨h₂e, h₂s⟩
  · exact Or.inl (h₁.trans h₂)
  · exact Or.inl (h₂e ▸ h₁)
  · exact Or.inl (h₁e ▸ h₂)
  · exact Or.inr ⟨h₁e.trans h₂e, h₁s.trans h₂s⟩

theorem countP_lt_of_mem {α : Type} {l : List α} {p q : α → Bool} {v : α}
    (hv : v ∈ l) (hpv : p v = false) (hqv : q v = true)
    (hmono : ∀ x, p x = true → q x = true) :
    l.countP p < l.countP q := by
  induction l with
  | nil => cases hv
  | cons a l ih =>
    rw [List.countP_cons, List.countP_cons]
    rcases List.mem_cons.mp hv with rfl | hv'
    · have hle : l.countP p ≤ l.countP q := List.countP_mono_left (fun x _ hpx => hmono x hpx)
      have h1 : (if p v = true then 1 else 0 : ℕ) = 0 := by rw [if_neg]; simp [hpv]
      have h2 : (if q v = true then 1 else 0 : ℕ) = 1 := if_pos hqv
      rw [h1, h2]
      omega
    · have h := ih hv'
      have haq : (if p a = true then 1 else 0 : ℕ) ≤ (if q a = true then 1 else 0) := by
        by_cases hpa : p a = true
        · rw [if_pos hpa, if_pos (hmono a hpa)]
        · rw [if_neg hpa]
          exact Nat.zero_le _
      omega

theorem countP_eq_of_iff {α : Type} {l : List α} {p q : α → Bool}
    (h : ∀ x ∈ l, p x = q x) : l.countP p = l.countP q := by
  induction l with
  | nil => rfl
  | cons a l ih =>
    rw [List.countP_cons, List.countP_cons, h a (List.mem_cons_self a l),
      ih (fun x hx => h x (List.mem_cons_of_mem a hx))]

theorem mapSum_lt_of_mem {α : Type} {l : List α} {f f' : α → ℕ} {v : α}
    (hv : v ∈ l) (hle : ∀ x, f' x ≤ f x) (hlt : f' v < f v) :
    (l.map f').sum < (l.map f).sum := by
  induction l with
  | nil => cases hv
  | cons a l ih =>
    simp only [List.map_cons, List.sum_cons]
    rcases List.mem_cons.mp hv with rfl | hv'
    · have : (l.map f').sum ≤ (l.map f).sum := by
        apply List.sum_le_sum
        intro x hx
        exact hle x
      omega
    · have := ih hv'
      have := hle a
      omega

theorem heapMin2_mem (e : ℕ × Node) (es : List (ℕ × Node)) :
    heapMin2 e es ∈ e :: es := by
  induction es generalizing e with
  | nil => exact List.mem_cons_self _ _
  | cons f fs ih =>
    rw [heapMin2]
    by_cases hc : e.1 < (heapMin2 f fs).1 ∨
        (e.1 = (heapMin2 f fs).1 ∧ e.2 ≤ (heapMin2 f fs).2)
    · rw [if_pos hc]
      exact List.mem_cons_self _ _
    · rw [if_neg hc]
      exact List.mem_cons_of_mem _ (ih f)

theorem heapMin2_le (e : ℕ × Node) (es : List (ℕ × Node)) :
    ∀ x ∈ e :: es, (heapMin2 e es).1 ≤ x.1 := by
  induction es generalizing e with
  | nil =>
    intro x hx
    rcases List.mem_cons.mp hx with rfl | hx'
    · exact le_refl _
    · cases hx'
  | cons f fs ih =>
    intro x hx
    rw [heapMin2]
    by_cases hc : e.1 < (heapMin2 f fs).1 ∨
        (e.1 = (heapMin2 f fs).1 ∧ e.2 ≤ (heapMin2 f fs).2)
    · rw [if_pos hc]
      rcases List.mem_cons.mp hx with rfl | hx'
      · exact le_refl _
      · have h2 := ih f x hx'
        rcases hc with hlt | ⟨heq, _⟩
        · exact le_of_lt (lt_of_lt_of_le hlt h2)
        · exact heq ▸ h2
    · rw [if_neg hc]
      rcases List.mem_cons.mp hx with rfl | hx'
      · rcases Nat.lt_or_ge x.1 (heapMin2 f fs).1 with hlt | hge
        · exact absurd (Or.inl hlt) hc
        · exact hge
      · exact ih f x hx'

theorem heapMin_mem {q : List (ℕ × Node)} {m : ℕ × Node}
    (h : heapMin q = some m) : m ∈ q := by
  cases q with
  | nil => cases h
  | cons e es =>
    rw [heapMin] at h
    cases h
    exact heapMin2_mem e es

theorem heapMin_le {q : List (ℕ × Node)} {m : ℕ × Node}
    (h : heapMin q = some m) : ∀ x ∈ q, m.1 ≤ x.1 := by
  cases q with
  | nil => cases h
  | cons e es =>
    rw [heapMin] at h
    cases h
    exact heapMin2_le e es

theorem heappop_some {q : List (ℕ × Node)} {m : ℕ × Node}
    {rest : List (ℕ × Node)} (h : heappop q = some (m, rest)) :
    heapMin q = some m ∧ rest = q.erase m := by
  unfold heappop at h
  cases hm : heapMin q with
  | none => rw [hm] at h; cases h
  | some m2 =>
    rw [hm] at h
    simp only [Option.map_some'] at h
    cases h
    exact ⟨rfl, rfl⟩

theorem heappop_length {q : List (ℕ × Node)} {m : ℕ × Node}
    {rest : List (ℕ × Node)} (h : heappop q = some (m, rest)) :
    rest.length < q.length := by
  obtain ⟨hmin, hrest⟩ := heappop_some h
  have hmem := heapMin_mem hmin
  rw [hrest, List.length_erase_of_mem hmem]
  have : 0 < q.length := List.length_pos.mpr (List.ne_nil_of_mem hmem)
  omega

theorem heappop_mem {q : List (ℕ × Node)} {m : ℕ × Node}
    {rest : List (ℕ × Node)} (h : heappop q = some (m, rest)) : m ∈ q :=
  heapMin_mem (heappop_some h).1

theorem heappop_min {q : List (ℕ × Node)} {m : ℕ × Node}
    {rest : List (ℕ × Node)} (h : heappop q = some (m, rest)) :
    ∀ e ∈ q, m.1 ≤ e.1 :=
  heapMin_le (heappop_some h).1

theorem edgeMatches_symm (u v : Node) (e : Node × Node × ℕ) :
    edgeMatches u v e = edgeMatches v u e := by
  unfold edgeMatches
  rw [Bool.or_comm]

theorem hasEdge_symm {g : Graph} {u v : Node} (h : g.hasEdge u v) :
    g.hasEdge v u := by
  obtain ⟨e, he, hm⟩ := h
  exact ⟨e, he, (edgeMatches_symm v u e).trans hm⟩

theorem weight?_symm (g : Graph) (u v : Node) :
    g.weight? u v = g.weight? v u := by
  unfold Graph.weight?
  have : edgeMatches u v = edgeMatches v u := funext (fun e => edgeMatches_symm u v e)
  rw [this]

theorem wt_symm (g : Graph) (u v : Node) : g.wt u v = g.wt v u := by
  unfold Graph.wt
  rw [weight?_symm]

theorem edgeMatches_elim {u v : Node} {e : Node × Node × ℕ}
    (h : edgeMatches u v e = true) :
    (e.1 = u ∧ e.2.1 = v) ∨ (e.1 = v ∧ e.2.1 = u) := by
  unfold edgeMatches at h
  rcases Bool.or_eq_true_iff.mp h with h' | h' <;>
    rcases Bool.and_eq_true_iff.mp h' with ⟨h1, h2⟩
  · exact Or.inl ⟨beq_iff_eq.mp h1, beq_iff_eq.mp h2⟩
  · exact Or.inr ⟨beq_iff_eq.mp h1, beq_iff_eq.mp h2⟩

theorem mem_allNodes_of_hasEdge {g : Graph} {u v : Node}
    (h : g.hasEdge u v) : u ∈ g.allNodes ∧ v ∈ g.allNodes := by
  obtain ⟨e, he, hm⟩ := h
  have hmem : ∀ x, x = e.1 ∨ x = e.2.1 → x ∈ g.allNodes := by
    intro x hx
    unfold Graph.allNodes
    rw [List.mem_dedup, List.mem_append]
    right
    rw [List.mem_flatMap]
    refine ⟨e, he, ?_⟩
    rcases hx with rfl | rfl <;> simp
  rcases edgeMatches_elim hm with ⟨h1, h2⟩ | ⟨h1, h2⟩
  · exact ⟨hmem u (Or.inl h1.symm), hmem v (Or.inr h2.symm)⟩
  · exact ⟨hmem u (Or.inr h2.symm), hmem v (Or.inl h1.symm)⟩

theorem hasEdge_of_mem_neighbors {g : Graph} {u v : Node}
    (h : v ∈ g.neighbors u) : g.hasEdge u v := by
  unfold Graph.neighbors at h
  rw [List.mem_filterMap] at h
  obtain ⟨e, he, hm⟩ := h
  by_cases h1 : e.1 = u
  · rw [if_pos h1] at hm
    cases hm
    exact ⟨e, he, by unfold edgeMatches; simp [h1]⟩
  · rw [if_neg h1] at hm
    by_cases h2 : e.2.1 = u
    · rw [if_pos h2] at hm
      cases hm
      exact ⟨e, he, by unfold edgeMatches; simp [h2]⟩
    · rw [if_neg h2] at hm
      cases hm

theorem mem_neighbors_of_hasEdge {g : Graph} {u v : Node}
    (h : g.hasEdge u v) : v ∈ g.neighbors u := by
  obtain ⟨e, he, hm⟩ := h
  unfold Graph.neighbors
  rw [List.mem_filterMap]
  refine ⟨e, he, ?_⟩
  rcases edgeMatches_elim hm with ⟨h1, h2⟩ | ⟨h1, h2⟩
  · rw [if_pos h1, h2]
  · by_cases hu : e.1 = u
    · rw [if_pos hu, h2, ← hu, h1]
    · rw [if_neg hu, if_pos h2, h1]

theorem relaxNeighbor_cases (g : Graph) (u₀ : Node) (c₀ : ℕ)
    (st : DijkstraState) (v : Node) :
    relaxNeighbor g u₀ c₀ st v = st ∨
      distLex g (relaxNeighbor g u₀ c₀ st v).dist st.dist := by
  unfold relaxNeighbor
  by_cases he : g.hasEdge u₀ v
  · rw [if_pos he]
    by_cases hlt : ((c₀ + g.wt u₀ v : ℕ) : Cost) < st.dist v
    · rw [if_pos hlt]
      right
      have hvmem : v ∈ g.allNodes := (mem_allNodes_of_hasEdge he).2
      by_cases htop : st.dist v = ⊤
      · left
        apply countP_lt_of_mem hvmem
        · simp
        · simp [htop]
        · intro x hx
          by_cases hxv : x = v
          · subst hxv
            simp at hx
          · simp only [decide_eq_true_eq] at hx ⊢
            rw [if_neg hxv] at hx
            exact hx
      · right
        obtain ⟨a, ha⟩ := WithTop.ne_top_iff_exists.mp htop
        constructor
        · apply countP_eq_of_iff
          intro x hx
          by_cases hxv : x = v
          · subst hxv
            simp [htop]
          · simp only [if_neg hxv]
        · have hDa : c₀ + g.wt u₀ v < a := by
            rw [← ha] at hlt
            exact WithTop.coe_lt_coe.mp hlt
          apply mapSum_lt_of_mem hvmem
          · intro x
            by_cases hxv : x = v
            · subst hxv
              rw [← ha]
              simpa using le_of_lt hDa
            · simp only [if_neg hxv]
              exact le_refl _
          · rw [← ha]
            simpa using hDa
    · rw [if_neg hlt]
      exact Or.inl rfl
  · rw [if_neg he]
    exact Or.inl rfl

theorem foldl_relax_cases (g : Graph) (u₀ : Node) (c₀ : ℕ) :
    ∀ (l : List Node) (st : DijkstraState),
      l.foldl (relaxNeighbor g u₀ c₀) st = st ∨
        distLex g (l.foldl (relaxNeighbor g u₀ c₀) st).dist st.dist := by
  intro l
  induction l with
  | nil => intro st; exact Or.inl rfl
  | cons a l ih =>
    intro st
    rw [List.foldl_cons]
    rcases relaxNeighbor_cases g u₀ c₀ st a with heq | hlex
    · rw [heq]
      exact ih st
    · rcases ih (relaxNeighbor g u₀ c₀ st a) with heq | hlex2
      · rw [heq]
        exact Or.inr hlex
      · exact Or.inr (distLex_trans hlex2 hlex)

theorem relaxAll_cases (g : Graph) (u₀ : Node) (c₀ : ℕ) (st : DijkstraState) :
    relaxAll g u₀ c₀ st = st ∨ distLex g (relaxAll g u₀ c₀ st).dist st.dist :=
  foldl_relax_cases g u₀ c₀ (g.neighbors u₀) st

/-- The main Dijkstra loop, lines 44-78 of the source: pop the least entry;
drop it if stale (line 51); stop if it is the target (line 56); otherwise
relax all neighbors and continue. -/
def dijkstraLoop (g : Graph) (endN : Node) (st : DijkstraState) :
    DijkstraState :=
  match h : heappop st.queue with
  | none => st
  | some ((c₀, u₀), rest) =>
    if st.dist u₀ < (c₀ : Cost) then
      dijkstraLoop g endN ⟨st.dist, st.pred, rest⟩
    else if u₀ = endN then
      ⟨st.dist, st.pred, rest⟩
    else
      dijkstraLoop g endN (relaxAll g u₀ c₀ ⟨st.dist, st.pred, rest⟩)
termination_by (topCount g st.dist, finSum g st.dist, st.queue.length)
decreasing_by
  · apply Prod.Lex.right
    apply Prod.Lex.right
    exact heappop_length h
  · rcases relaxAll_cases g u₀ c₀ ⟨st.dist, st.pred, rest⟩ with heq | hlex
    · rw [heq]
      apply Prod.Lex.right
      apply Prod.Lex.right
      exact heappop_length h
    · rcases hlex with hlt | ⟨heqc, hsum⟩
      · exact Prod.Lex.left _ _ hlt
      · rw [heqc]
        apply Prod.Lex.right
        exact Prod.Lex.left _ _ hsum

/-- Result of the path-reconstruction while loop (lines 87-97).  `severed`
is the `current is None` early return (lines 91-92); `outOfFuel` marks a
state on which the Python loop would never terminate (proved unreachable
for the states the algorithm produces). -/
inductive ReconResult where
  | outOfFuel
  | severed
  | path (l : List Node)
deriving DecidableEq

/-- The reconstruction while loop: walk the predecessor dict backwards from
`end` accumulating nodes, stop at `start`, and prepend `start` (the Python
builds the list backwards and reverses; the accumulator here is already in
final order). -/
def reconstructPath : ℕ → (Node → Option Node) → Node → Option Node →
    List Node → ReconResult
  | 0, _, _, _, _ => .outOfFuel
  | fuel + 1, pred, start, cur, acc =>
    if cur = some start then .path (start :: acc)
    else
      match cur with
      | none => .severed
      | some v => reconstructPath fuel pred start (pred v) (v :: acc)

/-- The initial Dijkstra state (lines 21-40): distance zero at `start` and
infinity elsewhere, no predecessors, and the queue holding `(0, start)`. -/
def initState (start : Node) : DijkstraState :=
  ⟨fun v => if v = start then (0 : Cost) else ⊤, fun _ => none, [(0, start)]⟩

/-- Lines 13-100 of the source: manual Dijkstra from `start` to `endN`.
Mirrors the source exactly: the `start not in distances` early return
(lines 31-32), the main loop, the `distances[end]` infinity check (lines
82-83, a `KeyError` — the `.error ()` result — when `endN` is not a dict
key), and path reconstruction.  Returns the (path, cost) pair. -/
def find_shortest_path_dijkstra (g : Graph) (start endN : Node) :
    Except Unit (List Node × Cost) :=
  if start ∈ g.nodes then
    if endN ∈ g.nodes then
      if (dijkstraLoop g endN (initState start)).dist endN = ⊤ then .ok ([], ⊤)
      else
        match reconstructPath (g.nodes.length + 1)
            (dijkstraLoop g endN (initState start)).pred start (some endN) [] with
        | .path l => .ok (l, (dijkstraLoop g endN (initState start)).dist endN)
        | _ => .ok ([], ⊤)
    else .error ()
  else .ok ([], ⊤)

/-- networkx `G.remove_edge(u, v)` on an undirected graph: the edge record
joining `u` and `v` disappears (in both directions, since a single
undirected record serves both). -/
def Graph.removeEdge (g : Graph) (u v : Node) : Graph :=
  ⟨g.nodes, g.edges.filter (fun e => !(edgeMatches u v e))⟩

/-- Lines 414-419 (and 442-447) of the source: copy the graph and remove
every edge traversed by the first walker's path.  The source's destructive
`remove_edge` on the private copy `G_temp` is modelled as this pure
transform; the caller's graph value is untouched (the model has no
mutation at all, matching `self.G.copy()`). -/
def removeStep (h : Graph) (uv : Node × Node) : Graph :=
  if h.hasEdge uv.1 uv.2 then h.removeEdge uv.1 uv.2 else h

def reduceGraph (g : Graph) (path : List Node) : Graph :=
  (consPairs path).foldl removeStep g

/-- Lines 373-388: recompute a path's cost by summing edge weights of the
original graph, returning infinity if some traversed edge is missing. -/
def get_path_cost_from_original_graph (g : Graph) (path : List Node) : Cost :=
  go (consPairs path)
where
  go : List (Node × Node) → Cost
    | [] => 0
    | uv :: rest =>
      if g.hasEdge uv.1 uv.2 then (g.wt uv.1 uv.2 : Cost) + go rest
      else ⊤

/-- Which scenario the arbitration selects (Escenario 1: Javier first). -/
inductive Escenario where
  | uno
  | dos
deriving DecidableEq

/-- The synchronization directive of lines 494-506. -/
inductive Sync where
  | javierFirst (espera : Cost)
  | andreinaFirst (espera : Cost)
  | together
deriving DecidableEq

/-- Python float subtraction as used on line 496/501, evaluated only under
the guard that the left operand strictly exceeds the right (so the
`finite - ⊤` arm is unreachable; it is given an arbitrary value). -/
def costSub (a b : Cost) : Cost :=
  if a = ⊤ then ⊤
  else if b = ⊤ then 0
  else ((a.untop' 0 - b.untop' 0 : ℕ) : Cost)

/-- The comparison chain of lines 495-506 producing the synchronization
directive from the two final (recomputed) costs. -/
def syncOf (tiempoJ tiempoA : Cost) : Sync :=
  if tiempoA < tiempoJ then .javierFirst (costSub tiempoJ tiempoA)
  else if tiempoJ < tiempoA then .andreinaFirst (costSub tiempoA tiempoJ)
  else .together

/-- The data reported on success by `on_button_click`: the selected
scenario, both final routes, both final recomputed costs, and the
synchronization directive. -/
structure ArbResult where
  escenario : Escenario
  rutaJ : List Node
  rutaA : List Node
  tiempoJ : Cost
  tiempoA : Cost
  sync : Sync
deriving DecidableEq

/-- The five observable outcomes of `on_button_click`: a Python KeyError
(possible only when the destination is not a graph node), the three early
error returns (lines 407-411, 435-439, 460-466), and success. -/
inductive ArbOutcome where
  | keyError
  | javierUnreachable
  | andreinaUnreachable
  | sinSolucion
  | ok (r : ArbResult)
deriving DecidableEq

/-- Lines 391-512 of the source (the routing logic of the button handler,
GUI rendering aside): evaluate Scenario 1 (Javier first) and Scenario 2
(Andreína first), abort early if a first leg is unreachable, fail when
both totals are infinite, otherwise select by `total1 <= total2`,
recompute both final costs on the original graph, and emit the
synchronization directive. -/
def on_button_click (g : Graph) (casaJavier casaAndreina destino : Node) :
    ArbOutcome :=
  match find_shortest_path_dijkstra g casaJavier destino with
  | .error _ => .keyError
  | .ok (ruta_j1, tiempo_j1) =>
    if tiempo_j1 = ⊤ then .javierUnreachable
    else
      match find_shortest_path_dijkstra (reduceGraph g ruta_j1) casaAndreina destino with
      | .error _ => .keyError
      | .ok (ruta_a1, tiempo_a1) =>
        match find_shortest_path_dijkstra g casaAndreina destino with
        | .error _ => .keyError
        | .ok (ruta_a2, tiempo_a2) =>
          if tiempo_a2 = ⊤ then .andreinaUnreachable
          else
            match find_shortest_path_dijkstra (reduceGraph g ruta_a2) casaJavier destino with
            | .error _ => .keyError
            | .ok (ruta_j2, tiempo_j2) =>
              if tiempo_j1 + tiempo_a1 = ⊤ ∧ tiempo_a2 + tiempo_j2 = ⊤ then
                .sinSolucion
              else
                if tiempo_j1 + tiempo_a1 ≤ tiempo_a2 + tiempo_j2 then
                  let tJ := get_path_cost_from_original_graph g ruta_j1
                  let tA := get_path_cost_from_original_graph g ruta_a1
                  .ok ⟨.uno, ruta_j1, ruta_a1, tJ, tA, syncOf tJ tA⟩
                else
                  let tJ := get_path_cost_from_original_graph g ruta_j2
                  let tA := get_path_cost_from_original_graph g ruta_a2
                  .ok ⟨.dos, ruta_j2, ruta_a2, tJ, tA, syncOf tJ tA⟩

/-- The route and cost a `find_shortest_path_dijkstra` call produces, with
an arbitrary default on the KeyError branch (used only to state scenario
totals; the theorems assume the destination is a graph node, under which
the call never raises). -/
def routeResult (g : Graph) (s e : Node) : List Node × Cost :=
  match find_shortest_path_dijkstra g s e with
  | .ok r => r
  | .error _ => ([], ⊤)

/-- Scenario 1 evaluation: Javier routes on the full graph, Andreína on
the graph with Javier's edges removed. -/
def escenario1 (g : Graph) (casaJavier casaAndreina destino : Node) :
    (List Node × Cost) × (List Node × Cost) :=
  (routeResult g casaJavier destino,
    routeResult (reduceGraph g (routeResult g casaJavier destino).1)
      casaAndreina destino)

/-- Scenario 2 evaluation: Andreína routes on the full graph, Javier on
the graph with Andreína's edges removed. -/
def escenario2 (g : Graph) (casaJavier casaAndreina destino : Node) :
    (List Node × Cost) × (List Node × Cost) :=
  (routeResult g casaAndreina destino,
    routeResult (reduceGraph g (routeResult g casaAndreina destino).1)
      casaJavier destino)

/-- Scenario 1 total (`total_tiempo1`, line 424). -/
def escenario1Total (g : Graph) (casaJavier casaAndreina destino : Node) : Cost :=
  (escenario1 g casaJavier casaAndreina destino).1.2 +
    (escenario1 g casaJavier casaAndreina destino).2.2

/-- Scenario 2 total (`total_tiempo2`, line 452). -/
def escenario2Total (g : Graph) (casaJavier casaAndreina destino : Node) : Cost :=
  (escenario2 g casaJavier casaAndreina destino).1.2 +
    (escenario2 g casaJavier casaAndreina destino).2.2

/-- Snoc-structured walks: `WalkTo g s v p` says `p` is a walk from `s` to
`v` in `g`.  Interchangeable with `IsWalk` (proved below); this form drives
the inductions. -/
inductive WalkTo (g : Graph) (s : Node) : Node → List Node → Prop where
  | single : WalkTo g s s [s]
  | snoc {y v : Node} {l : List Node} :
      WalkTo g s y l → g.hasEdge y v → WalkTo g s v (l ++ [v])

theorem WalkTo.ne_nil {g : Graph} {s v : Node} {l : List Node}
    (h : WalkTo g s v l) : l ≠ [] := by
  cases h with
  | single => simp
  | snoc h he => simp

theorem WalkTo.head? {g : Graph} {s v : Node} {l : List Node}
    (h : WalkTo g s v l) : l.head? = some s := by
  induction h with
  | single => rfl
  | snoc h he ih =>
    rename_i y v l
    rw [List.head?_append_of_ne_nil _ h.ne_nil]
    exact ih

theorem WalkTo.getLast? {g : Graph} {s v : Node} {l : List Node}
    (h : WalkTo g s v l) : l.getLast? = some v := by
  cases h with
  | single => rfl
  | snoc h he => exact List.getLast?_concat _

theorem WalkTo.chain' {g : Graph} {s v : Node} {l : List Node}
    (h : WalkTo g s v l) : l.Chain' g.hasEdge := by
  induction h with
  | single => simp
  | snoc h he ih =>
    rename_i y v l
    rw [List.chain'_append]
    refine ⟨ih, List.chain'_singleton _, ?_⟩
    intro a ha b hb
    rw [h.getLast?] at ha
    cases ha
    cases hb
    exact he

theorem WalkTo.isWalk {g : Graph} {s v : Node} {l : List Node}
    (h : WalkTo g s v l) : IsWalk g s v l :=
  ⟨h.ne_nil, h.head?, h.getLast?, h.chain'⟩

theorem walkTo_of_isWalk {g : Graph} {s v : Node} {l : List Node}
    (h : IsWalk g s v l) : WalkTo g s v l := by
  induction l using List.reverseRecOn generalizing v with
  | nil => exact absurd rfl h.1
  | append_singleton l a ih =>
    obtain ⟨-, hhead, hlast, hchain⟩ := h
    rw [List.getLast?_concat] at hlast
    cases hlast
    cases hl : l with
    | nil =>
      subst hl
      simp only [List.nil_append, List.head?_cons, Option.some.injEq] at hhead
      subst hhead
      exact WalkTo.single
    | cons b l' =>
      have hlne : l ≠ [] := by rw [hl]; simp
      rw [← hl] at *
      have hchain' := List.chain'_append.mp hchain
      obtain ⟨hc1, -, hc3⟩ := hchain'
      have hy : ∃ y, l.getLast? = some y := by
        cases hgl : l.getLast? with
        | none => exact absurd (List.getLast?_eq_none_iff.mp hgl) hlne
        | some y => exact ⟨y, rfl⟩
      obtain ⟨y, hyl⟩ := hy
      have hedge : g.hasEdge y a := hc3 y hyl a rfl
      have hwalk : IsWalk g s y l := by
        refine ⟨hlne, ?_, hyl, hc1⟩
        rwa [List.head?_append_of_ne_nil _ hlne] at hhead
      exact WalkTo.snoc (ih hwalk) hedge

theorem isWalk_iff_walkTo {g : Graph} {s v : Node} {l : List Node} :
    IsWalk g s v l ↔ WalkTo g s v l :=
  ⟨walkTo_of_isWalk, WalkTo.isWalk⟩

theorem walkWeight_single (g : Graph) (x : Node) : walkWeight g [x] = 0 := rfl

theorem walkWeight_snoc (g : Graph) :
    ∀ (l : List Node) (y v : Node), l.getLast? = some y →
      walkWeight g (l ++ [v]) = walkWeight g l + g.wt y v := by
  intro l
  induction l with
  | nil => intro y v hy; cases hy
  | cons a l ih =>
    intro y v hy
    cases l with
    | nil =>
      simp only [List.getLast?_singleton, Option.some.injEq] at hy
      subst hy
      simp [walkWeight]
    | cons b l' =>
      have hy' : (b :: l').getLast? = some y := by
        rw [List.getLast?_cons_cons] at hy
        exact hy
      have h2 := ih y v hy'
      have e1 : walkWeight g ((a :: b :: l') ++ [v]) =
          g.wt a b + walkWeight g ((b :: l') ++ [v]) := rfl
      have e2 : walkWeight g (a :: b :: l') =
          g.wt a b + walkWeight g (b :: l') := rfl
      rw [e1, e2, h2, Nat.add_assoc]

/-- Derivability of `start` from `v` by iterating the predecessor dict (the
abstract content of the reconstruction loop terminating at `start`). -/
inductive Reaches (pred : Node → Option Node) (start : Node) : Node → Prop where
  | refl : Reaches pred start start
  | step {v u : Node} : pred v = some u → Reaches pred start u →
      Reaches pred start v

/-- An explicit predecessor chain from `v` down to `start`. -/
inductive PredChain (pred : Node → Option Node) (start : Node) :
    Node → List Node → Prop where
  | base : PredChain pred start start [start]
  | step {v u : Node} {l : List Node} : pred v = some u →
      PredChain pred start u l → PredChain pred start v (v :: l)

theorem PredChain.head {pred : Node → Option Node} {start v : Node}
    {l : List Node} (h : PredChain pred start v l) : l.head? = some v := by
  cases h <;> rfl

theorem PredChain.reaches {pred : Node → Option Node} {start v : Node}
    {l : List Node} (h : PredChain pred start v l) : Reaches pred start v := by
  induction h with
  | base => exact Reaches.refl
  | step hp hc ih => exact Reaches.step hp ih

theorem predChain_mem_suffix {pred : Node → Option Node} {start u : Node}
    {l : List Node} (h : PredChain pred start u l) :
    ∀ v ∈ l, ∃ l', PredChain pred start v l' ∧ l' <:+ l := by
  induction h with
  | base =>
    intro v hv
    rw [List.mem_singleton] at hv
    subst hv
    exact ⟨_, PredChain.base, List.suffix_refl _⟩
  | step hp hc ih =>
    rename_i w u' l'
    intro v hv
    rcases List.mem_cons.mp hv with rfl | hv'
    · exact ⟨v :: l', PredChain.step hp hc, List.suffix_refl _⟩
    · obtain ⟨l'', hchain, hsuf⟩ := ih v hv'
      exact ⟨l'', hchain, hsuf.trans (List.suffix_cons _ _)⟩

theorem reaches_nodup_chain {pred : Node → Option Node} {start v : Node}
    (h : Reaches pred start v) :
    ∃ l, PredChain pred start v l ∧ l.Nodup := by
  induction h with
  | refl => exact ⟨_, PredChain.base, List.nodup_singleton _⟩
  | step hp hr ih =>
    rename_i w u
    obtain ⟨l, hchain, hnodup⟩ := ih
    by_cases hw : w ∈ l
    · obtain ⟨l', hchain', hsuf⟩ := predChain_mem_suffix hchain w hw
      exact ⟨l', hchain', hnodup.sublist hsuf.sublist⟩
    · exact ⟨w :: l, PredChain.step hp hchain, List.nodup_cons.mpr ⟨hw, hnodup⟩⟩

theorem heappop_none {q : List (ℕ × Node)} (h : heappop q = none) : q = [] := by
  cases q with
  | nil => rfl
  | cons e es =>
    rw [heappop, heapMin] at h
    cases h

/-- The loop invariant of the Dijkstra main loop, with `S` the ghost set of
settled nodes (nodes extracted non-stale and fully relaxed so far). -/
structure Inv (g : Graph) (start : Node) (S : Node → Prop)
    (st : DijkstraState) : Prop where
  distStart : st.dist start = 0
  sMin : ∀ u, S u → ∀ p, WalkTo g start u p →
    st.dist u ≤ (walkWeight g p : Cost)
  sRelaxed : ∀ u, S u → ∀ v, g.hasEdge u v →
    st.dist v ≤ st.dist u + (g.wt u v : Cost)
  queueDist : ∀ c v, (c, v) ∈ st.queue → st.dist v ≤ (c : Cost)
  active : ∀ v, st.dist v ≠ ⊤ →
    S v ∨ ∃ c : ℕ, (c, v) ∈ st.queue ∧ (c : Cost) = st.dist v
  predEdge : ∀ v u, st.pred v = some u →
    g.hasEdge u v ∧ st.dist u ≠ ⊤ ∧
      st.dist u + (g.wt u v : Cost) ≤ st.dist v
  predReach : ∀ v, st.dist v ≠ ⊤ → Reaches st.pred start v

theorem predChain_walk {g : Graph} {start : Node} {dist : Node → Cost}
    {pred : Node → Option Node} (hds : dist start = 0)
    (hpe : ∀ v u, pred v = some u → g.hasEdge u v ∧ dist u ≠ ⊤ ∧
      dist u + (g.wt u v : Cost) ≤ dist v) :
    ∀ {v : Node} {l : List Node}, PredChain pred start v l →
      WalkTo g start v l.reverse ∧
        (walkWeight g l.reverse : Cost) ≤ dist v := by
  intro v l h
  induction h with
  | base =>
    constructor
    · exact WalkTo.single
    · rw [hds]
      simp [walkWeight]
  | step hp hc ih =>
    rename_i v u l
    obtain ⟨hw, hwt⟩ := ih
    obtain ⟨he, hu, hle⟩ := hpe v u hp
    rw [List.reverse_cons]
    constructor
    · exact WalkTo.snoc hw he
    · rw [walkWeight_snoc g l.reverse u v hw.getLast?]
      push_cast
      calc (walkWeight g l.reverse : Cost) + (g.wt u v : Cost)
          ≤ dist u + (g.wt u v : Cost) := add_le_add_right hwt _
        _ ≤ dist v := hle

theorem reaches_walk {g : Graph} {start : Node} {dist : Node → Cost}
    {pred : Node → Option Node} (hds : dist start = 0)
    (hpe : ∀ v u, pred v = some u → g.hasEdge u v ∧ dist u ≠ ⊤ ∧
      dist u + (g.wt u v : Cost) ≤ dist v)
    {v : Node} (hr : Reaches pred start v) :
    ∃ p, WalkTo g start v p ∧ (walkWeight g p : Cost) ≤ dist v := by
  obtain ⟨l, hchain, -⟩ := reaches_nodup_chain hr
  obtain ⟨hw, hwt⟩ := predChain_walk hds hpe hchain
  exact ⟨l.reverse, hw, hwt⟩

theorem crossing {g : Graph} {start : Node} {S : Node → Prop}
    {st : DijkstraState} (inv : Inv g start S st) :
    ∀ {v : Node} {p : List Node}, WalkTo g start v p →
      st.dist v ≤ (walkWeight g p : Cost) ∨
        ∃ (c : ℕ) (u : Node), (c, u) ∈ st.queue ∧
          (c : Cost) ≤ (walkWeight g p : Cost) := by
  intro v p h
  induction h with
  | single =>
    left
    rw [inv.distStart, walkWeight_single]
    simp
  | snoc hw he ih =>
    rename_i y v l
    have hsnoc := walkWeight_snoc g l y v hw.getLast?
    have hmono : (walkWeight g l : Cost) ≤ (walkWeight g (l ++ [v]) : Cost) := by
      rw [hsnoc]
      exact_mod_cast Nat.le_add_right _ _
    rcases ih with hdist | ⟨c, u, hmem, hle⟩
    · by_cases hS : S y
      · left
        calc st.dist v ≤ st.dist y + (g.wt y v : Cost) := inv.sRelaxed y hS v he
          _ ≤ (walkWeight g l : Cost) + (g.wt y v : Cost) := add_le_add_right hdist _
          _ = (walkWeight g (l ++ [v]) : Cost) := by rw [hsnoc]; push_cast; rfl
      · have hfin : st.dist y ≠ ⊤ := by
          intro htop
          rw [htop] at hdist
          exact (show ((walkWeight g l : ℕ) : Cost) ≠ ⊤ from WithTop.coe_ne_top)
            (top_le_iff.mp hdist)
        rcases inv.active y hfin with hS' | ⟨c, hmem, hc⟩
        · exact absurd hS' hS
        · right
          refine ⟨c, y, hmem, ?_⟩
          rw [hc]
          exact hdist.trans hmono
    · right
      exact ⟨c, u, hmem, hle.trans hmono⟩

theorem pop_exact {g : Graph} {start : Node} {S : Node → Prop}
    {st : DijkstraState} (inv : Inv g start S st) {c₀ : ℕ} {u₀ : Node}
    {rest : List (ℕ × Node)} (hpop : heappop st.queue = some ((c₀, u₀), rest))
    (hns : ¬ st.dist u₀ < (c₀ : Cost)) : st.dist u₀ = (c₀ : Cost) :=
  le_antisymm (inv.queueDist c₀ u₀ (heappop_mem hpop)) (le_of_not_lt hns)

theorem pop_min {g : Graph} {start : Node} {S : Node → Prop}
    {st : DijkstraState} (inv : Inv g start S st) {c₀ : ℕ} {u₀ : Node}
    {rest : List (ℕ × Node)} (hpop : heappop st.queue = some ((c₀, u₀), rest))
    (hns : ¬ st.dist u₀ < (c₀ : Cost)) :
    ∀ p, WalkTo g start u₀ p → (c₀ : Cost) ≤ (walkWeight g p : Cost) := by
  intro p hp
  rcases crossing inv hp with hdist | ⟨c, u, hmem, hle⟩
  · rw [pop_exact inv hpop hns] at hdist
    exact hdist
  · have := heappop_min hpop (c, u) hmem
    exact le_trans (by exact_mod_cast this) hle

theorem inv_pop_stale {g : Graph} {start : Node} {S : Node → Prop}
    {st : DijkstraState} (inv : Inv g start S st) {c₀ : ℕ} {u₀ : Node}
    {rest : List (ℕ × Node)} (hpop : heappop st.queue = some ((c₀, u₀), rest))
    (hst : st.dist u₀ < (c₀ : Cost)) :
    Inv g start S ⟨st.dist, st.pred, rest⟩ := by
  obtain ⟨-, hrest⟩ := heappop_some hpop
  refine ⟨inv.distStart, inv.sMin, inv.sRelaxed, ?_, ?_, inv.predEdge,
    inv.predReach⟩
  · intro c v hm
    have hm' : (c, v) ∈ st.queue.erase (c₀, u₀) := by
      rw [← hrest]
      exact hm
    exact inv.queueDist c v (List.erase_subset _ _ hm')
  · intro v hv
    rcases inv.active v hv with hS | ⟨c, hm, hc⟩
    · exact Or.inl hS
    · right
      refine ⟨c, ?_, hc⟩
      have hne : (c, v) ≠ (c₀, u₀) := by
        intro heq
        cases heq
        rw [hc] at hst
        exact lt_irrefl _ hst
      show (c, v) ∈ rest
      rw [hrest]
      exact (List.mem_erase_of_ne hne).mpr hm

theorem reaches_update_of_lt {pred : Node → Option Node}
    {dist : Node → Cost} {start : Node}
    (hmono : ∀ x y, pred x = some y → dist y ≤ dist x) {v u₀ : Node} :
    ∀ {w : Node}, Reaches pred start w → dist w < dist v →
      Reaches (fun x => if x = v then some u₀ else pred x) start w := by
  intro w h
  induction h with
  | refl => intro _; exact Reaches.refl
  | step hp hr ih =>
    rename_i x y
    intro hx
    have hxv : x ≠ v := by
      intro heq
      rw [heq] at hx
      exact lt_irrefl _ hx
    refine Reaches.step ?_ (ih (lt_of_le_of_lt (hmono x y hp) hx))
    show (if x = v then some u₀ else pred x) = some y
    rw [if_neg hxv]
    exact hp

theorem reaches_repair {pred : Node → Option Node} {start v u₀ : Node}
    (hv : Reaches (fun x => if x = v then some u₀ else pred x) start v) :
    ∀ {w : Node}, Reaches pred start w →
      Reaches (fun x => if x = v then some u₀ else pred x) start w := by
  intro w h
  induction h with
  | refl => exact Reaches.refl
  | step hp hr ih =>
    rename_i x y
    by_cases hxv : x = v
    · subst hxv
      exact hv
    · refine Reaches.step ?_ ih
      show (if x = v then some u₀ else pred x) = some y
      rw [if_neg hxv]
      exact hp

/-- The mid-relaxation invariant: all `Inv` components w.r.t. the extended
ghost set `S'` except that the relaxedness of `u₀` itself is still being
established, plus the fact that the extracted node keeps its exact popped
cost. -/
structure MidInv (g : Graph) (start : Node) (S' : Node → Prop) (u₀ : Node)
    (c₀ : ℕ) (st : DijkstraState) : Prop where
  distStart : st.dist start = 0
  sMin : ∀ u, S' u → ∀ p, WalkTo g start u p →
    st.dist u ≤ (walkWeight g p : Cost)
  sRelaxedOld : ∀ u, S' u → u ≠ u₀ → ∀ v, g.hasEdge u v →
    st.dist v ≤ st.dist u + (g.wt u v : Cost)
  queueDist : ∀ c v, (c, v) ∈ st.queue → st.dist v ≤ (c : Cost)
  active : ∀ v, st.dist v ≠ ⊤ →
    S' v ∨ ∃ c : ℕ, (c, v) ∈ st.queue ∧ (c : Cost) = st.dist v
  predEdge : ∀ v u, st.pred v = some u →
    g.hasEdge u v ∧ st.dist u ≠ ⊤ ∧
      st.dist u + (g.wt u v : Cost) ≤ st.dist v
  predReach : ∀ v, st.dist v ≠ ⊤ → Reaches st.pred start v
  distU : st.dist u₀ = (c₀ : Cost)

theorem relaxNeighbor_midInv {g : Graph} {start : Node} {S' : Node → Prop}
    {u₀ : Node} {c₀ : ℕ} {st : DijkstraState} (hSu : S' u₀)
    (hmid : MidInv g start S' u₀ c₀ st) (v : Node) :
    MidInv g start S' u₀ c₀ (relaxNeighbor g u₀ c₀ st v) := by
  unfold relaxNeighbor
  by_cases he : g.hasEdge u₀ v
  · rw [if_pos he]
    by_cases hlt : ((c₀ + g.wt u₀ v : ℕ) : Cost) < st.dist v
    · rw [if_pos hlt]
      have hfin : st.dist u₀ ≠ ⊤ := by
        rw [hmid.distU]
        exact WithTop.coe_ne_top
      obtain ⟨p, hwp, hwle⟩ :=
        reaches_walk hmid.distStart hmid.predEdge (hmid.predReach u₀ hfin)
      have hwc : walkWeight g p ≤ c₀ := by
        rw [hmid.distU] at hwle
        exact_mod_cast hwle
      have hwalkv : WalkTo g start v (p ++ [v]) := WalkTo.snoc hwp he
      have hwvle : (walkWeight g (p ++ [v]) : Cost) ≤
          ((c₀ + g.wt u₀ v : ℕ) : Cost) := by
        rw [walkWeight_snoc g p u₀ v hwp.getLast?]
        exact_mod_cast Nat.add_le_add_right hwc _
      have hvS : ¬ S' v := by
        intro hv
        have := (hmid.sMin v hv _ hwalkv).trans hwvle
        exact absurd hlt (not_lt.mpr this)
      have hvu : v ≠ u₀ := fun heq => hvS (heq ▸ hSu)
      have hvstart : v ≠ start := by
        intro heq
        rw [heq, hmid.distStart] at hlt
        exact absurd hlt (not_lt.mpr (zero_le _))
      set D : Cost := ((c₀ + g.wt u₀ v : ℕ) : Cost) with hD
      set d' : Node → Cost := fun x => if x = v then D else st.dist x with hd'
      set p' : Node → Option Node :=
        fun x => if x = v then some u₀ else st.pred x with hp'
      have hd'v : d' v = D := by rw [hd']; simp
      have hd'ne : ∀ x, x ≠ v → d' x = st.dist x := by
        intro x hx
        rw [hd']
        simp [hx]
      have hd'le : ∀ x, d' x ≤ st.dist x := by
        intro x
        by_cases hx : x = v
        · rw [hx, hd'v]
          exact le_of_lt hlt
        · rw [hd'ne x hx]
      have hp'v : p' v = some u₀ := by rw [hp']; simp
      have hp'ne : ∀ x, x ≠ v → p' x = st.pred x := by
        intro x hx
        rw [hp']
        simp [hx]
      have hmono : ∀ x y, st.pred x = some y → st.dist y ≤ st.dist x := by
        intro x y hp
        obtain ⟨-, -, hle⟩ := hmid.predEdge x y hp
        exact le_trans (self_le_add_right _ _) hle
      have hreachv : Reaches p' start v := by
        refine Reaches.step hp'v ?_
        rw [hp']
        refine reaches_update_of_lt hmono (hmid.predReach u₀ hfin) ?_
        calc st.dist u₀ = (c₀ : Cost) := hmid.distU
          _ ≤ D := by rw [hD]; exact_mod_cast Nat.le_add_right _ _
          _ < st.dist v := hlt
      refine ⟨?_, ?_, ?_, ?_, ?_, ?_, ?_, ?_⟩
      · rw [show (⟨d', p', st.queue ++ [(c₀ + g.wt u₀ v, v)]⟩ :
          DijkstraState).dist = d' from rfl, hd'ne start (Ne.symm hvstart)]
        exact hmid.distStart
      · intro u hu q hq
        rw [show (⟨d', p', st.queue ++ [(c₀ + g.wt u₀ v, v)]⟩ :
          DijkstraState).dist = d' from rfl, hd'ne u (fun heq => hvS (heq ▸ hu))]
        exact hmid.sMin u hu q hq
      · intro u hu hne w hw
        rw [show (⟨d', p', st.queue ++ [(c₀ + g.wt u₀ v, v)]⟩ :
          DijkstraState).dist = d' from rfl, hd'ne u (fun heq => hvS (heq ▸ hu))]
        exact le_trans (hd'le w) (hmid.sRelaxedOld u hu hne w hw)
      · intro c w hm
        rcases List.mem_append.mp hm with hm' | hm'
        · exact le_trans (hd'le w) (hmid.queueDist c w hm')
        · rw [List.mem_singleton] at hm'
          cases hm'
          rw [show (⟨d', p', st.queue ++ [(c₀ + g.wt u₀ v, v)]⟩ :
            DijkstraState).dist = d' from rfl, hd'v]
      · intro w hw
        rw [show (⟨d', p', st.queue ++ [(c₀ + g.wt u₀ v, v)]⟩ :
          DijkstraState).dist = d' from rfl] at hw ⊢
        by_cases hwv : w = v
        · subst hwv
          right
          exact ⟨c₀ + g.wt u₀ w,
            List.mem_append_right _ (List.mem_singleton_self _),
            by rw [hd'v, hD]⟩
        · rw [hd'ne w hwv] at hw
          rcases hmid.active w hw with hS | ⟨c, hm, hc⟩
          · exact Or.inl hS
          · right
            refine ⟨c, List.mem_append_left _ hm, ?_⟩
            rw [hd'ne w hwv]
            exact hc
      · intro w u hp
        rw [show (⟨d', p', st.queue ++ [(c₀ + g.wt u₀ v, v)]⟩ :
          DijkstraState).pred = p' from rfl] at hp
        rw [show (⟨d', p', st.queue ++ [(c₀ + g.wt u₀ v, v)]⟩ :
          DijkstraState).dist = d' from rfl]
        by_cases hwv : w = v
        · subst hwv
          rw [hp'v] at hp
          cases hp
          refine ⟨he, ?_, ?_⟩
          · rw [hd'ne u₀ (Ne.symm hvu), hmid.distU]
            exact WithTop.coe_ne_top
          · rw [hd'ne u₀ (Ne.symm hvu), hmid.distU, hd'v, hD]
            exact_mod_cast le_refl (c₀ + g.wt u₀ w)
        · rw [hp'ne w hwv] at hp
          obtain ⟨hedge, hufin, hule⟩ := hmid.predEdge w u hp
          refine ⟨hedge, ?_, ?_⟩
          · by_cases huv : u = v
            · rw [huv, hd'v, hD]
              exact WithTop.coe_ne_top
            · rw [hd'ne u huv]
              exact hufin
          · rw [hd'ne w hwv]
            exact le_trans (add_le_add_right (hd'le u) _) hule
      · intro w hw
        rw [show (⟨d', p', st.queue ++ [(c₀ + g.wt u₀ v, v)]⟩ :
          DijkstraState).dist = d' from rfl] at hw
        rw [show (⟨d', p', st.queue ++ [(c₀ + g.wt u₀ v, v)]⟩ :
          DijkstraState).pred = p' from rfl]
        by_cases hwv : w = v
        · subst hwv
          exact hreachv
        · rw [hd'ne w hwv] at hw
          rw [hp']
          exact reaches_repair (hp' ▸ hreachv) (hmid.predReach w hw)
      · rw [show (⟨d', p', st.queue ++ [(c₀ + g.wt u₀ v, v)]⟩ :
          DijkstraState).dist = d' from rfl, hd'ne u₀ (Ne.symm hvu)]
        exact hmid.distU
    · rw [if_neg hlt]
      exact hmid
  · rw [if_neg he]
    exact hmid

theorem relaxNeighbor_dist_le (g : Graph) (u₀ : Node) (c₀ : ℕ)
    (st : DijkstraState) (v : Node) :
    ∀ x, (relaxNeighbor g u₀ c₀ st v).dist x ≤ st.dist x := by
  intro x
  unfold relaxNeighbor
  by_cases he : g.hasEdge u₀ v
  · rw [if_pos he]
    by_cases hlt : ((c₀ + g.wt u₀ v : ℕ) : Cost) < st.dist v
    · rw [if_pos hlt]
      show (if x = v then _ else st.dist x) ≤ st.dist x
      by_cases hx : x = v
      · rw [if_pos hx, hx]
        exact le_of_lt hlt
      · rw [if_neg hx]
    · rw [if_neg hlt]
  · rw [if_neg he]

theorem relaxNeighbor_bound {g : Graph} {u₀ v : Node} (c₀ : ℕ)
    (st : DijkstraState) (he : g.hasEdge u₀ v) :
    (relaxNeighbor g u₀ c₀ st v).dist v ≤ ((c₀ + g.wt u₀ v : ℕ) : Cost) := by
  unfold relaxNeighbor
  rw [if_pos he]
  by_cases hlt : ((c₀ + g.wt u₀ v : ℕ) : Cost) < st.dist v
  · rw [if_pos hlt]
    show (if v = v then _ else st.dist v) ≤ _
    rw [if_pos rfl]
  · rw [if_neg hlt]
    exact le_of_not_lt hlt

theorem foldl_dist_le (g : Graph) (u₀ : Node) (c₀ : ℕ) :
    ∀ (l : List Node) (st : DijkstraState) (x : Node),
      ((l.foldl (relaxNeighbor g u₀ c₀) st).dist x) ≤ st.dist x := by
  intro l
  induction l with
  | nil => intro st x; exact le_refl _
  | cons a l ih =>
    intro st x
    rw [List.foldl_cons]
    exact le_trans (ih _ x) (relaxNeighbor_dist_le g u₀ c₀ st a x)

theorem foldl_bound (g : Graph) (u₀ : Node) (c₀ : ℕ) :
    ∀ (l : List Node) (st : DijkstraState),
      (∀ v ∈ l, g.hasEdge u₀ v) → ∀ v ∈ l,
        ((l.foldl (relaxNeighbor g u₀ c₀) st).dist v) ≤
          ((c₀ + g.wt u₀ v : ℕ) : Cost) := by
  intro l
  induction l with
  | nil => intro st _ v hv; cases hv
  | cons a l ih =>
    intro st hedges v hv
    rw [List.foldl_cons]
    rcases List.mem_cons.mp hv with rfl | hv'
    · exact le_trans (foldl_dist_le g u₀ c₀ l _ v)
        (relaxNeighbor_bound c₀ st (hedges v (List.mem_cons_self _ _)))
    · exact ih _ (fun w hw => hedges w (List.mem_cons_of_mem _ hw)) v hv'

theorem foldl_midInv {g : Graph} {start : Node} {S' : Node → Prop}
    {u₀ : Node} {c₀ : ℕ} (hSu : S' u₀) :
    ∀ (l : List Node) (st : DijkstraState), MidInv g start S' u₀ c₀ st →
      MidInv g start S' u₀ c₀ (l.foldl (relaxNeighbor g u₀ c₀) st) := by
  intro l
  induction l with
  | nil => intro st h; exact h
  | cons a l ih =>
    intro st h
    rw [List.foldl_cons]
    exact ih _ (relaxNeighbor_midInv hSu h a)

theorem inv_relax {g : Graph} {start : Node} {S : Node → Prop}
    {st : DijkstraState} (inv : Inv g start S st) {c₀ : ℕ} {u₀ : Node}
    {rest : List (ℕ × Node)} (hpop : heappop st.queue = some ((c₀, u₀), rest))
    (hns : ¬ st.dist u₀ < (c₀ : Cost)) :
    Inv g start (fun x => S x ∨ x = u₀)
      (relaxAll g u₀ c₀ ⟨st.dist, st.pred, rest⟩) := by
  unfold relaxAll
  have hex := pop_exact inv hpop hns
  have hmin := pop_min inv hpop hns
  obtain ⟨-, hrest⟩ := heappop_some hpop
  have hSu : (fun x => S x ∨ x = u₀) u₀ := Or.inr rfl
  have hmid₀ : MidInv g start (fun x => S x ∨ x = u₀) u₀ c₀
      ⟨st.dist, st.pred, rest⟩ := by
    refine ⟨inv.distStart, ?_, ?_, ?_, ?_, inv.predEdge, inv.predReach, hex⟩
    · intro u hu p hp
      rcases hu with hS | heq
      · exact inv.sMin u hS p hp
      · show st.dist u ≤ _
        rw [heq] at hp ⊢
        rw [hex]
        exact hmin p hp
    · intro u hu hne v he
      rcases hu with hS | heq
      · exact inv.sRelaxed u hS v he
      · exact absurd heq hne
    · intro c v hm
      have hm' : (c, v) ∈ st.queue.erase (c₀, u₀) := by
        rw [← hrest]
        exact hm
      exact inv.queueDist c v (List.erase_subset _ _ hm')
    · intro v hv
      rcases inv.active v hv with hS | ⟨c, hm, hc⟩
      · exact Or.inl (Or.inl hS)
      · by_cases hcv : (c, v) = (0, 0) ∧ False
        · exact absurd hcv.2 not_false
        · by_cases hcv' : (c, v) = (c₀, u₀)
          · left
            right
            exact congrArg Prod.snd hcv'
          · right
            refine ⟨c, ?_, hc⟩
            show (c, v) ∈ rest
            rw [hrest]
            exact (List.mem_erase_of_ne hcv').mpr hm
  have hmidF := foldl_midInv hSu (g.neighbors u₀) _ hmid₀
  have hboundF := foldl_bound g u₀ c₀ (g.neighbors u₀) ⟨st.dist, st.pred, rest⟩
    (fun v hv => hasEdge_of_mem_neighbors hv)
  refine ⟨hmidF.distStart, hmidF.sMin, ?_, hmidF.queueDist, hmidF.active,
    hmidF.predEdge, hmidF.predReach⟩
  intro u hu v he
  by_cases huu : u = u₀
  · rw [huu] at he ⊢
    have hv := mem_neighbors_of_hasEdge he
    calc ((g.neighbors u₀).foldl (relaxNeighbor g u₀ c₀)
          ⟨st.dist, st.pred, rest⟩).dist v
        ≤ ((c₀ + g.wt u₀ v : ℕ) : Cost) := hboundF v hv
      _ = (c₀ : Cost) + (g.wt u₀ v : Cost) := by push_cast; rfl
      _ = ((g.neighbors u₀).foldl (relaxNeighbor g u₀ c₀)
          ⟨st.dist, st.pred, rest⟩).dist u₀ + (g.wt u₀ v : Cost) := by
        rw [hmidF.distU]
  · exact hmidF.sRelaxedOld u hu huu v he

theorem inv_init (g : Graph) (start : Node) :
    Inv g start (fun _ => False)
      ⟨fun v => if v = start then (0 : Cost) else ⊤, fun _ => none,
        [(0, start)]⟩ := by
  refine ⟨?_, ?_, ?_, ?_, ?_, ?_, ?_⟩
  · show (if start = start then (0 : Cost) else ⊤) = 0
    rw [if_pos rfl]
  · intro u hu
    cases hu
  · intro u hu
    cases hu
  · intro c v hm
    rw [List.mem_singleton] at hm
    cases hm
    show (if start = start then (0 : Cost) else ⊤) ≤ _
    rw [if_pos rfl]
    simp
  · intro v hv
    by_cases hvs : v = start
    · right
      rw [hvs]
      refine ⟨0, List.mem_singleton_self _, ?_⟩
      show _ = (if start = start then (0 : Cost) else ⊤)
      rw [if_pos rfl]
      simp
    · exfalso
      apply hv
      show (if v = start then (0 : Cost) else ⊤) = ⊤
      rw [if_neg hvs]
  · intro v u hp
    cases hp
  · intro v hv
    by_cases hvs : v = start
    · rw [hvs]
      exact Reaches.refl
    · exfalso
      apply hv
      show (if v = start then (0 : Cost) else ⊤) = ⊤
      rw [if_neg hvs]

/-- What holds of the loop's final state: the predecessor structure is
intact and the tentative distance of the target is a lower bound of every
walk cost (whether the loop ended by exhaustion or by the early break). -/
structure PostInv (g : Graph) (start endN : Node) (st : DijkstraState) :
    Prop where
  distStart : st.dist start = 0
  predEdge : ∀ v u, st.pred v = some u →
    g.hasEdge u v ∧ st.dist u ≠ ⊤ ∧
      st.dist u + (g.wt u v : Cost) ≤ st.dist v
  predReach : ∀ v, st.dist v ≠ ⊤ → Reaches st.pred start v
  minAt : ∀ p, WalkTo g start endN p →
    st.dist endN ≤ (walkWeight g p : Cost)

theorem dijkstraLoop_eq_none {g : Graph} {endN : Node} {st : DijkstraState}
    (h : heappop st.queue = none) : dijkstraLoop g endN st = st := by
  rw [dijkstraLoop.eq_def]
  split
  · rfl
  · rename_i heq
    rw [h] at heq
    cases heq

theorem dijkstraLoop_eq_some {g : Graph} {endN : Node} {st : DijkstraState}
    {c₀ : ℕ} {u₀ : Node} {rest : List (ℕ × Node)}
    (h : heappop st.queue = some ((c₀, u₀), rest)) :
    dijkstraLoop g endN st =
      if st.dist u₀ < (c₀ : Cost) then
        dijkstraLoop g endN ⟨st.dist, st.pred, rest⟩
      else if u₀ = endN then ⟨st.dist, st.pred, rest⟩
      else dijkstraLoop g endN (relaxAll g u₀ c₀ ⟨st.dist, st.pred, rest⟩) := by
  rw [dijkstraLoop.eq_def]
  split
  · rename_i heq
    rw [h] at heq
    cases heq
  · rename_i heq
    rw [h] at heq
    cases heq
    rfl

theorem dijkstraLoop_post (g : Graph) (start endN : Node) :
    ∀ (st : DijkstraState) (S : Node → Prop), Inv g start S st →
      PostInv g start endN (dijkstraLoop g endN st) := by
  intro st
  induction st using dijkstraLoop.induct g endN with
  | case1 x hpop =>
    intro S hinv
    rw [dijkstraLoop_eq_none hpop]
    refine ⟨hinv.distStart, hinv.predEdge, hinv.predReach, ?_⟩
    intro p hp
    rcases crossing hinv hp with hle | ⟨c, u, hm, -⟩
    · exact hle
    · rw [heappop_none hpop] at hm
      cases hm
  | case2 x c₀ u₀ rest hpop hst ih =>
    intro S hinv
    rw [dijkstraLoop_eq_some hpop, if_pos hst]
    exact ih S (inv_pop_stale hinv hpop hst)
  | case3 x c₀ rest hpop hns =>
    intro S hinv
    rw [dijkstraLoop_eq_some hpop, if_neg hns, if_pos rfl]
    refine ⟨hinv.distStart, hinv.predEdge, hinv.predReach, ?_⟩
    intro p hp
    show x.dist endN ≤ _
    rw [pop_exact hinv hpop hns]
    exact pop_min hinv hpop hns p hp
  | case4 x c₀ u₀ rest hpop hns hne ih =>
    intro S hinv
    rw [dijkstraLoop_eq_some hpop, if_neg hns, if_neg hne]
    exact ih _ (inv_relax hinv hpop hns)

theorem PredChain.nonnil {pred : Node → Option Node} {start v : Node}
    {l : List Node} (h : PredChain pred start v l) : l ≠ [] := by
  cases h <;> simp

theorem PredChain.last {pred : Node → Option Node} {start v : Node}
    {l : List Node} (h : PredChain pred start v l) :
    l.getLast? = some start := by
  induction h with
  | base => rfl
  | step hp hc ih =>
    rename_i v u l
    cases l with
    | nil => exact absurd rfl hc.nonnil
    | cons b l' =>
      rw [List.getLast?_cons_cons]
      exact ih

theorem hasEdge_mem_nodes {g : Graph} (hwf : g.WF) {u v : Node}
    (h : g.hasEdge u v) : u ∈ g.nodes ∧ v ∈ g.nodes := by
  obtain ⟨e, he, hm⟩ := h
  obtain ⟨h1, h2⟩ := hwf.2 e he
  rcases edgeMatches_elim hm with ⟨ha, hb⟩ | ⟨ha, hb⟩
  · exact ⟨ha ▸ h1, hb ▸ h2⟩
  · exact ⟨hb ▸ h2, ha ▸ h1⟩

theorem predChain_subset_nodes {g : Graph} (hwf : g.WF) {start : Node}
    (hs : start ∈ g.nodes) {pred : Node → Option Node}
    {dist : Node → Cost}
    (hpe : ∀ v u, pred v = some u → g.hasEdge u v ∧ dist u ≠ ⊤ ∧
      dist u + (g.wt u v : Cost) ≤ dist v) :
    ∀ {v : Node} {l : List Node}, PredChain pred start v l →
      ∀ x ∈ l, x ∈ g.nodes := by
  intro v l h
  induction h with
  | base =>
    intro x hx
    rw [List.mem_singleton] at hx
    exact hx ▸ hs
  | step hp hc ih =>
    rename_i v u l
    intro x hx
    rcases List.mem_cons.mp hx with rfl | hx'
    · exact (hasEdge_mem_nodes hwf (hpe x u hp).1).2
    · exact ih x hx'

theorem nodup_length_le {l₁ l₂ : List Node} (h₁ : l₁.Nodup)
    (hsub : l₁ ⊆ l₂) : l₁.length ≤ l₂.length := by
  calc l₁.length = l₁.toFinset.card := (List.toFinset_card_of_nodup h₁).symm
    _ ≤ l₂.toFinset.card :=
        Finset.card_le_card
          (fun x hx => List.mem_toFinset.mpr (hsub (List.mem_toFinset.mp hx)))
    _ ≤ l₂.length := l₂.toFinset_card_le

theorem reconstructPath_of_chain {pred : Node → Option Node} {start : Node} :
    ∀ {v : Node} {l : List Node}, PredChain pred start v l → l.Nodup →
      ∀ (fuel : ℕ) (acc : List Node), l.length ≤ fuel →
        reconstructPath fuel pred start (some v) acc =
          .path (l.reverse ++ acc) := by
  intro v l h
  induction h with
  | base =>
    intro hnd fuel acc hlen
    cases fuel with
    | zero => cases hlen
    | succ f =>
      rw [reconstructPath]
      rw [if_pos rfl]
      rfl
  | step hp hc ih =>
    rename_i v u l
    intro hnd fuel acc hlen
    have hvl : v ∉ l := (List.nodup_cons.mp hnd).1
    have hvstart : v ≠ start := by
      intro heq
      apply hvl
      rw [heq]
      obtain ⟨hne, hx⟩ := List.mem_getLast?_eq_getLast (Option.mem_def.mpr hc.last)
      rw [hx]
      exact List.getLast_mem hne
    cases fuel with
    | zero => cases hlen
    | succ f =>
      rw [reconstructPath]
      rw [if_neg (fun hh => hvstart (Option.some.inj hh))]
      have hlen' : l.length ≤ f := by
        simp only [List.length_cons] at hlen
        omega
      rw [hp]
      rw [ih (List.nodup_cons.mp hnd).2 f (v :: acc) hlen']
      rw [List.reverse_cons, List.append_assoc]
      rfl

theorem find_post (g : Graph) (start endN : Node) :
    PostInv g start endN (dijkstraLoop g endN (initState start)) :=
  dijkstraLoop_post g start endN (initState start) (fun _ => False)
    (inv_init g start)

theorem walkTo_mem_nodes {g : Graph} (hwf : g.WF) {s v : Node}
    {p : List Node} (hs : s ∈ g.nodes) (h : WalkTo g s v p) : v ∈ g.nodes := by
  induction h with
  | single => exact hs
  | snoc hw he ih => exact (hasEdge_mem_nodes hwf he).2

theorem find_not_mem {g : Graph} {start endN : Node} (hs : start ∉ g.nodes) :
    find_shortest_path_dijkstra g start endN = .ok ([], ⊤) := by
  unfold find_shortest_path_dijkstra
  rw [if_neg hs]

theorem find_keyError {g : Graph} {start endN : Node} (hs : start ∈ g.nodes)
    (he : endN ∉ g.nodes) :
    find_shortest_path_dijkstra g start endN = .error () := by
  unfold find_shortest_path_dijkstra
  rw [if_pos hs, if_neg he]

theorem find_isOk {g : Graph} {start endN : Node} (he : endN ∈ g.nodes) :
    ∃ pr, find_shortest_path_dijkstra g start endN = .ok pr := by
  unfold find_shortest_path_dijkstra
  by_cases hs : start ∈ g.nodes
  · rw [if_pos hs, if_pos he]
    by_cases ht : (dijkstraLoop g endN (initState start)).dist endN = ⊤
    · rw [if_pos ht]
      exact ⟨_, rfl⟩
    · rw [if_neg ht]
      split
      · exact ⟨_, rfl⟩
      · exact ⟨_, rfl⟩
  · rw [if_neg hs]
    exact ⟨_, rfl⟩

theorem loopDist_reachable {g : Graph} {start endN : Node}
    (h : (dijkstraLoop g endN (initState start)).dist endN ≠ ⊤) :
    Reachable g start endN := by
  have hpost := find_post g start endN
  obtain ⟨p, hw, -⟩ :=
    reaches_walk hpost.distStart hpost.predEdge (hpost.predReach endN h)
  exact ⟨p, hw.isWalk⟩

theorem find_unreachable {g : Graph} {start endN : Node}
    (hs : start ∈ g.nodes) (he : endN ∈ g.nodes)
    (hnr : ¬ Reachable g start endN) :
    find_shortest_path_dijkstra g start endN = .ok ([], ⊤) := by
  unfold find_shortest_path_dijkstra
  rw [if_pos hs, if_pos he]
  have ht : (dijkstraLoop g endN (initState start)).dist endN = ⊤ := by
    by_contra hne
    exact hnr (loopDist_reachable hne)
  rw [if_pos ht]

theorem find_reachable {g : Graph} (hwf : g.WF) {start endN : Node}
    (hs : start ∈ g.nodes) (hr : Reachable g start endN) :
    ∃ (p : List Node) (n : ℕ),
      find_shortest_path_dijkstra g start endN = .ok (p, (n : Cost)) ∧
        WalkTo g start endN p ∧ walkWeight g p = n ∧
        ∀ q, WalkTo g start endN q → n ≤ walkWeight g q := by
  obtain ⟨w₀, hw₀⟩ := hr
  have hw₀' := walkTo_of_isWalk hw₀
  have he : endN ∈ g.nodes := walkTo_mem_nodes hwf hs hw₀'
  have hpost := find_post g start endN
  have hne : (dijkstraLoop g endN (initState start)).dist endN ≠ ⊤ := by
    intro htop
    have hmin := hpost.minAt w₀ hw₀'
    rw [htop] at hmin
    exact WithTop.coe_ne_top (top_le_iff.mp hmin)
  obtain ⟨n, hn⟩ := WithTop.ne_top_iff_exists.mp hne
  have hn' : (dijkstraLoop g endN (initState start)).dist endN = (n : Cost) := by
    exact_mod_cast hn.symm
  obtain ⟨l, hchain, hnd⟩ := reaches_nodup_chain (hpost.predReach endN hne)
  have hsub := predChain_subset_nodes hwf hs hpost.predEdge hchain
  have hlen : l.length ≤ g.nodes.length + 1 :=
    le_trans (nodup_length_le hnd hsub) (Nat.le_succ _)
  have hrec := reconstructPath_of_chain hchain hnd (g.nodes.length + 1) [] hlen
  obtain ⟨hwalk, hwt⟩ := predChain_walk hpost.distStart hpost.predEdge hchain
  refine ⟨l.reverse, n, ?_, hwalk, ?_, ?_⟩
  · unfold find_shortest_path_dijkstra
    rw [if_pos hs, if_pos he, if_neg hne, hrec, List.append_nil, hn']
  · have h1 : walkWeight g l.reverse ≤ n := by
      rw [hn'] at hwt
      exact_mod_cast hwt
    have h2 : n ≤ walkWeight g l.reverse := by
      have := hpost.minAt _ hwalk
      rw [hn'] at this
      exact_mod_cast this
    omega
  · intro q hq
    have := hpost.minAt q hq
    rw [hn'] at this
    exact_mod_cast this

theorem find_finite_spec {g : Graph} (hwf : g.WF) {start endN : Node}
    {p : List Node} {n : ℕ}
    (h : find_shortest_path_dijkstra g start endN = .ok (p, (n : Cost))) :
    WalkTo g start endN p ∧ walkWeight g p = n ∧
      ∀ q, WalkTo g start endN q → n ≤ walkWeight g q := by
  by_cases hs : start ∈ g.nodes
  · by_cases he : endN ∈ g.nodes
    · by_cases hr : Reachable g start endN
      · obtain ⟨p', n', hfind, hwalk, hwt, hmin⟩ := find_reachable hwf hs hr
        rw [h] at hfind
        have hpn : p = p' ∧ ((n : Cost)) = ((n' : Cost)) := by
          have := Except.ok.inj hfind
          exact ⟨congrArg Prod.fst this, congrArg Prod.snd this⟩
        obtain ⟨rfl, hnn⟩ := hpn
        have hnn' : n = n' := by exact_mod_cast hnn
        subst hnn'
        exact ⟨hwalk, hwt, hmin⟩
      · rw [find_unreachable hs he hr] at h
        have := Except.ok.inj h
        exact absurd (congrArg Prod.snd this).symm WithTop.coe_ne_top
    · rw [find_keyError hs he] at h
      cases h
  · rw [find_not_mem hs] at h
    have := Except.ok.inj h
    exact absurd (congrArg Prod.snd this).symm WithTop.coe_ne_top

/-- Two unordered node pairs coincide. -/
def sameEdge (a b u v : Node) : Prop :=
  (a = u ∧ b = v) ∨ (a = v ∧ b = u)

instance (a b u v : Node) : Decidable (sameEdge a b u v) :=
  inferInstanceAs (Decidable ((a = u ∧ b = v) ∨ (a = v ∧ b = u)))

/-- The walker's path uses the undirected edge between `u` and `v`. -/
def pathUsesEdge (p : List Node) (u v : Node) : Prop :=
  ∃ ab ∈ consPairs p, sameEdge ab.1 ab.2 u v

instance (p : List Node) (u v : Node) : Decidable (pathUsesEdge p u v) :=
  List.decidableBEx _ (consPairs p)

theorem edgeMatches_of_sameEdge {a b u v : Node} (h : sameEdge a b u v) :
    ∀ e, edgeMatches u v e = edgeMatches a b e := by
  rcases h with ⟨rfl, rfl⟩ | ⟨rfl, rfl⟩
  · intro e
    rfl
  · intro e
    exact edgeMatches_symm _ _ _

theorem edgeMatches_unique {u v a b : Node} {e : Node × Node × ℕ}
    (h1 : edgeMatches u v e = true) (h2 : edgeMatches a b e = true) :
    sameEdge a b u v := by
  rcases edgeMatches_elim h1 with ⟨x1, x2⟩ | ⟨x1, x2⟩ <;>
    rcases edgeMatches_elim h2 with ⟨y1, y2⟩ | ⟨y1, y2⟩ <;>
    unfold sameEdge
  · exact Or.inl ⟨y1.symm.trans x1, y2.symm.trans x2⟩
  · exact Or.inr ⟨y2.symm.trans x2, y1.symm.trans x1⟩
  · exact Or.inr ⟨y1.symm.trans x1, y2.symm.trans x2⟩
  · exact Or.inl ⟨y2.symm.trans x2, y1.symm.trans x1⟩

theorem hasEdge_congr_same {g : Graph} {a b u v : Node}
    (h : sameEdge a b u v) : g.hasEdge u v ↔ g.hasEdge a b := by
  rcases h with ⟨rfl, rfl⟩ | ⟨rfl, rfl⟩
  · exact Iff.rfl
  · exact ⟨hasEdge_symm, hasEdge_symm⟩

theorem hasEdge_removeEdge {g : Graph} {a b u v : Node} :
    (g.removeEdge a b).hasEdge u v ↔ g.hasEdge u v ∧ ¬ sameEdge a b u v := by
  unfold Graph.removeEdge Graph.hasEdge
  constructor
  · rintro ⟨e, he, hm⟩
    rw [List.mem_filter] at he
    obtain ⟨he, hnb⟩ := he
    refine ⟨⟨e, he, hm⟩, ?_⟩
    intro hsame
    rw [edgeMatches_of_sameEdge hsame e] at hm
    rw [hm] at hnb
    cases hnb
  · rintro ⟨⟨e, he, hm⟩, hns⟩
    refine ⟨e, List.mem_filter.mpr ⟨he, ?_⟩, hm⟩
    cases hab : edgeMatches a b e with
    | false => rfl
    | true => exact absurd (edgeMatches_unique hm hab) hns

theorem find?_filter_of_imp {α : Type} {p q : α → Bool}
    (h : ∀ x, p x = true → q x = true) :
    ∀ l : List α, (l.filter q).find? p = l.find? p := by
  intro l
  induction l with
  | nil => rfl
  | cons a l ih =>
    rw [List.filter_cons]
    by_cases hq : q a = true
    · rw [if_pos hq]
      by_cases hp : p a = true
      · rw [List.find?_cons_of_pos _ hp, List.find?_cons_of_pos _ hp]
      · rw [List.find?_cons_of_neg _ hp, List.find?_cons_of_neg _ hp, ih]
    · rw [if_neg hq, ih]
      have hp : ¬ p a = true := fun hpa => hq (h a hpa)
      rw [List.find?_cons_of_neg _ hp]

theorem weight?_removeEdge {g : Graph} {a b u v : Node}
    (hns : ¬ sameEdge a b u v) :
    (g.removeEdge a b).weight? u v = g.weight? u v := by
  unfold Graph.removeEdge Graph.weight?
  have h : ∀ e, edgeMatches u v e = true → (! edgeMatches a b e) = true := by
    intro e hm
    cases hab : edgeMatches a b e with
    | false => rfl
    | true => exact absurd (edgeMatches_unique hm hab) hns
  rw [find?_filter_of_imp h]

theorem removeStep_hasEdge {h : Graph} {ab : Node × Node} {u v : Node} :
    (removeStep h ab).hasEdge u v ↔
      h.hasEdge u v ∧ ¬ sameEdge ab.1 ab.2 u v := by
  unfold removeStep
  by_cases hhe : h.hasEdge ab.1 ab.2
  · rw [if_pos hhe]
    exact hasEdge_removeEdge
  · rw [if_neg hhe]
    constructor
    · intro he
      refine ⟨he, ?_⟩
      intro hsame
      exact hhe ((hasEdge_congr_same hsame).mp he)
    · exact And.left

theorem removeStep_weight? {h : Graph} {ab : Node × Node} {u v : Node}
    (hns : ¬ sameEdge ab.1 ab.2 u v) :
    (removeStep h ab).weight? u v = h.weight? u v := by
  unfold removeStep
  by_cases hhe : h.hasEdge ab.1 ab.2
  · rw [if_pos hhe]
    exact weight?_removeEdge hns
  · rw [if_neg hhe]

theorem foldl_removeStep_hasEdge :
    ∀ (L : List (Node × Node)) (h : Graph) (u v : Node),
      (L.foldl removeStep h).hasEdge u v ↔
        h.hasEdge u v ∧ ∀ ab ∈ L, ¬ sameEdge ab.1 ab.2 u v := by
  intro L
  induction L with
  | nil =>
    intro h u v
    simp
  | cons ab L ih =>
    intro h u v
    rw [List.foldl_cons, ih, removeStep_hasEdge]
    constructor
    · rintro ⟨⟨he, hab⟩, hrest⟩
      refine ⟨he, ?_⟩
      intro cd hcd
      rcases List.mem_cons.mp hcd with rfl | hcd'
      · exact hab
      · exact hrest cd hcd'
    · rintro ⟨he, hall⟩
      exact ⟨⟨he, hall ab (List.mem_cons_self _ _)⟩,
        fun cd hcd => hall cd (List.mem_cons_of_mem _ hcd)⟩

theorem foldl_removeStep_weight? :
    ∀ (L : List (Node × Node)) (h : Graph) (u v : Node),
      (∀ ab ∈ L, ¬ sameEdge ab.1 ab.2 u v) →
        (L.foldl removeStep h).weight? u v = h.weight? u v := by
  intro L
  induction L with
  | nil =>
    intro h u v _
    rfl
  | cons ab L ih =>
    intro h u v hall
    rw [List.foldl_cons, ih _ _ _ (fun cd hcd => hall cd (List.mem_cons_of_mem _ hcd)),
      removeStep_weight? (hall ab (List.mem_cons_self _ _))]

theorem foldl_removeStep_nodes :
    ∀ (L : List (Node × Node)) (h : Graph),
      (L.foldl removeStep h).nodes = h.nodes := by
  intro L
  induction L with
  | nil => intro h; rfl
  | cons ab L ih =>
    intro h
    rw [List.foldl_cons, ih]
    unfold removeStep
    by_cases hhe : h.hasEdge ab.1 ab.2
    · rw [if_pos hhe]
      rfl
    · rw [if_neg hhe]

theorem foldl_removeStep_edges_subset :
    ∀ (L : List (Node × Node)) (h : Graph),
      (L.foldl removeStep h).edges ⊆ h.edges := by
  intro L
  induction L with
  | nil => intro h; exact fun x hx => hx
  | cons ab L ih =>
    intro h
    refine fun x hx => ?_
    have hx' := ih (removeStep h ab) hx
    unfold removeStep at hx'
    by_cases hhe : h.hasEdge ab.1 ab.2
    · rw [if_pos hhe] at hx'
      exact List.mem_of_mem_filter hx'
    · rw [if_neg hhe] at hx'
      exact hx'

theorem reduceGraph_hasEdge {g : Graph} {path : List Node} {u v : Node} :
    (reduceGraph g path).hasEdge u v ↔
      g.hasEdge u v ∧ ¬ pathUsesEdge path u v := by
  unfold reduceGraph pathUsesEdge
  rw [foldl_removeStep_hasEdge]
  constructor
  · rintro ⟨he, hall⟩
    exact ⟨he, fun ⟨ab, hab, hsame⟩ => hall ab hab hsame⟩
  · rintro ⟨he, hnu⟩
    exact ⟨he, fun ab hab hsame => hnu ⟨ab, hab, hsame⟩⟩

theorem reduceGraph_weight? {g : Graph} {path : List Node} {u v : Node}
    (h : ¬ pathUsesEdge path u v) :
    (reduceGraph g path).weight? u v = g.weight? u v := by
  unfold reduceGraph
  refine foldl_removeStep_weight? _ _ _ _ ?_
  intro ab hab hsame
  exact h ⟨ab, hab, hsame⟩

theorem reduceGraph_nodes (g : Graph) (path : List Node) :
    (reduceGraph g path).nodes = g.nodes :=
  foldl_removeStep_nodes _ _

theorem reduceGraph_WF {g : Graph} (hwf : g.WF) (path : List Node) :
    (reduceGraph g path).WF := by
  constructor
  · rw [reduceGraph_nodes]
    exact hwf.1
  · intro e he
    rw [reduceGraph_nodes]
    exact hwf.2 e (foldl_removeStep_edges_subset _ _ he)

theorem reduceGraph_wt {g : Graph} {path : List Node} {u v : Node}
    (h : ¬ pathUsesEdge path u v) :
    (reduceGraph g path).wt u v = g.wt u v := by
  unfold Graph.wt
  rw [reduceGraph_weight? h]

theorem chain'_pairs {g : Graph} :
    ∀ {p : List Node}, p.Chain' g.hasEdge →
      ∀ ab ∈ consPairs p, g.hasEdge ab.1 ab.2 := by
  intro p
  induction p with
  | nil => intro _ ab hab; cases hab
  | cons u rest ih =>
    cases rest with
    | nil => intro _ ab hab; cases hab
    | cons v r =>
      intro hch ab hab
      rw [List.chain'_cons] at hch
      have hpairs : consPairs (u :: v :: r) = (u, v) :: consPairs (v :: r) := rfl
      rw [hpairs] at hab
      rcases List.mem_cons.mp hab with rfl | hab'
      · exact hch.1
      · exact ih hch.2 ab hab'

theorem walkWeight_pairs (g : Graph) :
    ∀ p : List Node,
      walkWeight g p = ((consPairs p).map (fun ab => g.wt ab.1 ab.2)).sum := by
  intro p
  induction p with
  | nil => rfl
  | cons u rest ih =>
    cases rest with
    | nil => rfl
    | cons v r =>
      have hpairs : consPairs (u :: v :: r) = (u, v) :: consPairs (v :: r) := rfl
      rw [show walkWeight g (u :: v :: r) =
        g.wt u v + walkWeight g (v :: r) from rfl, hpairs, List.map_cons,
        List.sum_cons, ih]

theorem go_spec (g : Graph) :
    ∀ L : List (Node × Node), (∀ ab ∈ L, g.hasEdge ab.1 ab.2) →
      get_path_cost_from_original_graph.go g L =
        (((L.map (fun ab => g.wt ab.1 ab.2)).sum : ℕ) : Cost) := by
  intro L
  induction L with
  | nil =>
    intro _
    simp [get_path_cost_from_original_graph.go]
  | cons ab L ih =>
    intro hall
    rw [get_path_cost_from_original_graph.go,
      if_pos (hall ab (List.mem_cons_self _ _)),
      ih (fun cd hcd => hall cd (List.mem_cons_of_mem _ hcd)),
      List.map_cons, List.sum_cons]
    push_cast
    rfl

theorem getPathCost_eq_walkWeight {g : Graph} {p : List Node}
    (hch : p.Chain' g.hasEdge) :
    get_path_cost_from_original_graph g p = ((walkWeight g p : ℕ) : Cost) := by
  rw [get_path_cost_from_original_graph, go_spec g _ (chain'_pairs hch),
    walkWeight_pairs]

theorem isWalk_of_reduced {g : Graph} {q : List Node} {s t : Node}
    {p : List Node} (h : IsWalk (reduceGraph g q) s t p) : IsWalk g s t p :=
  ⟨h.1, h.2.1, h.2.2.1,
    h.2.2.2.imp (fun a b huv => (reduceGraph_hasEdge.mp huv).1)⟩

theorem reachable_of_reduced {g : Graph} {q : List Node} {s t : Node}
    (h : Reachable (reduceGraph g q) s t) : Reachable g s t := by
  obtain ⟨p, hp⟩ := h
  exact ⟨p, isWalk_of_reduced hp⟩

theorem walkWeight_reduced_eq {g : Graph} {q : List Node} :
    ∀ p : List Node, p.Chain' (reduceGraph g q).hasEdge →
      walkWeight (reduceGraph g q) p = walkWeight g p := by
  intro p
  induction p with
  | nil => intro _; rfl
  | cons u rest ih =>
    cases rest with
    | nil => intro _; rfl
    | cons v r =>
      intro hch
      rw [List.chain'_cons] at hch
      rw [show walkWeight (reduceGraph g q) (u :: v :: r) =
        (reduceGraph g q).wt u v + walkWeight (reduceGraph g q) (v :: r) from rfl]
      rw [show walkWeight g (u :: v :: r) =
        g.wt u v + walkWeight g (v :: r) from rfl]
      rw [reduceGraph_wt (reduceGraph_hasEdge.mp hch.1).2, ih hch.2]

theorem find_eq_ok_routeResult {g : Graph} {s e : Node} (he : e ∈ g.nodes) :
    find_shortest_path_dijkstra g s e = .ok (routeResult g s e) := by
  obtain ⟨pr, h⟩ := @find_isOk g s e he
  rw [h]
  unfold routeResult
  rw [h]

theorem routeResult_top_iff {g : Graph} (hwf : g.WF) {s dest : Node}
    (hdest : dest ∈ g.nodes) :
    (routeResult g s dest).2 = ⊤ ↔ (s ∉ g.nodes ∨ ¬ Reachable g s dest) := by
  constructor
  · intro htop
    by_cases hs : s ∈ g.nodes
    · right
      intro hr
      obtain ⟨p, n, hfind, -, -, -⟩ := find_reachable hwf hs hr
      unfold routeResult at htop
      rw [hfind] at htop
      exact WithTop.coe_ne_top (show ((n : ℕ) : Cost) = ⊤ from htop)
    · exact Or.inl hs
  · intro h
    rcases h with hs | hnr
    · unfold routeResult
      rw [find_not_mem hs]
    · by_cases hs : s ∈ g.nodes
      · unfold routeResult
        rw [find_unreachable hs hdest hnr]
      · unfold routeResult
        rw [find_not_mem hs]

theorem routeResult_reduced_top {g : Graph} (hwf : g.WF) {q : List Node}
    {s dest : Node} (hdest : dest ∈ g.nodes)
    (htop : (routeResult g s dest).2 = ⊤) :
    (routeResult (reduceGraph g q) s dest).2 = ⊤ := by
  have hdest' : dest ∈ (reduceGraph g q).nodes := by
    rw [reduceGraph_nodes]
    exact hdest
  rw [routeResult_top_iff (reduceGraph_WF hwf q) hdest']
  rcases (routeResult_top_iff hwf hdest).mp htop with hs | hnr
  · left
    rw [reduceGraph_nodes]
    exact hs
  · right
    exact fun hr => hnr (reachable_of_reduced hr)

theorem obc_eval {g : Graph} {cJ cA dest : Node} (hdest : dest ∈ g.nodes)
    {rj1 ra1 ra2 rj2 : List Node} {tj1 ta1 ta2 tj2 : Cost}
    (h1 : routeResult g cJ dest = (rj1, tj1))
    (h2 : routeResult (reduceGraph g rj1) cA dest = (ra1, ta1))
    (h3 : routeResult g cA dest = (ra2, ta2))
    (h4 : routeResult (reduceGraph g ra2) cJ dest = (rj2, tj2)) :
    on_button_click g cJ cA dest =
      if tj1 = ⊤ then .javierUnreachable
      else if ta2 = ⊤ then .andreinaUnreachable
      else if tj1 + ta1 = ⊤ ∧ ta2 + tj2 = ⊤ then .sinSolucion
      else if tj1 + ta1 ≤ ta2 + tj2 then
        .ok ⟨.uno, rj1, ra1, get_path_cost_from_original_graph g rj1,
          get_path_cost_from_original_graph g ra1,
          syncOf (get_path_cost_from_original_graph g rj1)
            (get_path_cost_from_original_graph g ra1)⟩
      else
        .ok ⟨.dos, rj2, ra2, get_path_cost_from_original_graph g rj2,
          get_path_cost_from_original_graph g ra2,
          syncOf (get_path_cost_from_original_graph g rj2)
            (get_path_cost_from_original_graph g ra2)⟩ := by
  have hdest1 : dest ∈ (reduceGraph g rj1).nodes := by
    rw [reduceGraph_nodes]
    exact hdest
  have hdest2 : dest ∈ (reduceGraph g ra2).nodes := by
    rw [reduceGraph_nodes]
    exact hdest
  have f1 := @find_eq_ok_routeResult g cJ dest hdest
  have f2 := @find_eq_ok_routeResult (reduceGraph g rj1) cA dest hdest1
  have f3 := @find_eq_ok_routeResult g cA dest hdest
  have f4 := @find_eq_ok_routeResult (reduceGraph g ra2) cJ dest hdest2
  rw [h1] at f1
  rw [h2] at f2
  rw [h3] at f3
  rw [h4] at f4
  unfold on_button_click
  simp only [f1, f2, f3, f4]

theorem find_self {g : Graph} {s : Node} (hs : s ∈ g.nodes) :
    find_shortest_path_dijkstra g s s = .ok ([s], ((0 : ℕ) : Cost)) := by
  have hd0 : (initState s).dist s = (0 : Cost) := by
    show (if s = s then (0 : Cost) else ⊤) = 0
    rw [if_pos rfl]
  have hpop : heappop (initState s).queue = some ((0, s), []) := by
    show heappop [(0, s)] = _
    unfold heappop heapMin
    simp [List.erase_cons_head, heapMin2]
  have hloop : dijkstraLoop g s (initState s) =
      ⟨(initState s).dist, (initState s).pred, []⟩ := by
    have hns : ¬ (initState s).dist s < ((0 : ℕ) : Cost) := by
      rw [hd0]
      simp
    rw [dijkstraLoop_eq_some hpop, if_neg hns, if_pos rfl]
  unfold find_shortest_path_dijkstra
  rw [if_pos hs, if_pos hs, hloop]
  have hne : ¬ ((⟨(initState s).dist, (initState s).pred, []⟩ :
      DijkstraState).dist s = ⊤) := by
    show ¬ ((initState s).dist s = ⊤)
    rw [hd0]
    simp
  rw [if_neg hne]
  have hrec : reconstructPath (g.nodes.length + 1)
      (⟨(initState s).dist, (initState s).pred, []⟩ :
        DijkstraState).pred s (some s) [] = .path [s] := by
    rw [reconstructPath, if_pos rfl]
  rw [hrec]
  show Except.ok ([s], (initState s).dist s) = _
  rw [hd0]
  norm_num

theorem routeResult_self {g : Graph} {s : Node} (hs : s ∈ g.nodes) :
    routeResult g s s = ([s], ((0 : ℕ) : Cost)) := by
  unfold routeResult
  rw [find_self hs]

theorem reduceGraph_single (g : Graph) (x : Node) : reduceGraph g [x] = g := rfl

theorem not_reachable_no_edges {nodes : List Node} {s t : Node} (hne : s ≠ t) :
    ¬ Reachable ⟨nodes, []⟩ s t := by
  rintro ⟨p, hp⟩
  cases walkTo_of_isWalk hp with
  | single => exact hne rfl
  | snoc hw he =>
    obtain ⟨e, he', -⟩ := he
    cases he'

theorem syncOf_spec (a b : Cost) :
    (b < a → syncOf a b = .javierFirst (costSub a b)) ∧
      (a < b → syncOf a b = .andreinaFirst (costSub b a)) ∧
      (a = b → syncOf a b = .together) := by
  refine ⟨?_, ?_, ?_⟩
  · intro h
    unfold syncOf
    rw [if_pos h]
  · intro h
    unfold syncOf
    rw [if_neg (not_lt.mpr (le_of_lt h)), if_pos h]
  · intro h
    unfold syncOf
    rw [if_neg (h ▸ lt_irrefl a), if_neg (h ▸ lt_irrefl a)]

theorem cost_ne_top_exists {c : Cost} (h : c ≠ ⊤) :
    ∃ n : ℕ, c = ((n : ℕ) : Cost) := by
  obtain ⟨n, hn⟩ := WithTop.ne_top_iff_exists.mp h
  exact ⟨n, by exact_mod_cast hn.symm⟩

theorem escenario1_eq {g : Graph} {cJ cA dest : Node}
    {rj1 ra1 : List Node} {tj1 ta1 : Cost}
    (h1 : routeResult g cJ dest = (rj1, tj1))
    (h2 : routeResult (reduceGraph g rj1) cA dest = (ra1, ta1)) :
    escenario1 g cJ cA dest = ((rj1, tj1), (ra1, ta1)) := by
  unfold escenario1
  rw [h1]
  simp only [h2]

theorem escenario2_eq {g : Graph} {cJ cA dest : Node}
    {ra2 rj2 : List Node} {ta2 tj2 : Cost}
    (h3 : routeResult g cA dest = (ra2, ta2))
    (h4 : routeResult (reduceGraph g ra2) cJ dest = (rj2, tj2)) :
    escenario2 g cJ cA dest = ((ra2, ta2), (rj2, tj2)) := by
  unfold escenario2
  rw [h3]
  simp only [h4]

theorem escenario1Total_eq {g : Graph} {cJ cA dest : Node}
    {rj1 ra1 : List Node} {tj1 ta1 : Cost}
    (h1 : routeResult g cJ dest = (rj1, tj1))
    (h2 : routeResult (reduceGraph g rj1) cA dest = (ra1, ta1)) :
    escenario1Total g cJ cA dest = tj1 + ta1 := by
  unfold escenario1Total
  rw [escenario1_eq h1 h2]

theorem escenario2Total_eq {g : Graph} {cJ cA dest : Node}
    {ra2 rj2 : List Node} {ta2 tj2 : Cost}
    (h3 : routeResult g cA dest = (ra2, ta2))
    (h4 : routeResult (reduceGraph g ra2) cJ dest = (rj2, tj2)) :
    escenario2Total g cJ cA dest = ta2 + tj2 := by
  unfold escenario2Total
  rw [escenario2_eq h3 h4]

theorem obc_ok_iff {g : Graph} {cJ cA dest : Node} (hwf : g.WF)
    (hdest : dest ∈ g.nodes)
    {rj1 ra1 ra2 rj2 : List Node} {tj1 ta1 ta2 tj2 : Cost}
    (h1 : routeResult g cJ dest = (rj1, tj1))
    (h2 : routeResult (reduceGraph g rj1) cA dest = (ra1, ta1))
    (h3 : routeResult g cA dest = (ra2, ta2))
    (h4 : routeResult (reduceGraph g ra2) cJ dest = (rj2, tj2))
    (r : ArbResult) :
    on_button_click g cJ cA dest = .ok r ↔
      (¬ (tj1 + ta1 = ⊤ ∧ ta2 + tj2 = ⊤) ∧
        r = (if tj1 + ta1 ≤ ta2 + tj2 then
          ⟨.uno, rj1, ra1, get_path_cost_from_original_graph g rj1,
            get_path_cost_from_original_graph g ra1,
            syncOf (get_path_cost_from_original_graph g rj1)
              (get_path_cost_from_original_graph g ra1)⟩
        else
          ⟨.dos, rj2, ra2, get_path_cost_from_original_graph g rj2,
            get_path_cost_from_original_graph g ra2,
            syncOf (get_path_cost_from_original_graph g rj2)
              (get_path_cost_from_original_graph g ra2)⟩)) := by
  have hg1 : tj1 = ⊤ → tj1 + ta1 = ⊤ ∧ ta2 + tj2 = ⊤ := by
    intro h
    have htop1 : (routeResult g cJ dest).2 = ⊤ := by
      rw [h1]
      exact h
    have htop2 := @routeResult_reduced_top g hwf ra2 cJ dest hdest htop1
    rw [h4] at htop2
    constructor
    · rw [h, top_add]
    · rw [show tj2 = ⊤ from htop2, add_top]
  have hg2 : ta2 = ⊤ → tj1 + ta1 = ⊤ ∧ ta2 + tj2 = ⊤ := by
    intro h
    have htop1 : (routeResult g cA dest).2 = ⊤ := by
      rw [h3]
      exact h
    have htop2 := @routeResult_reduced_top g hwf rj1 cA dest hdest htop1
    rw [h2] at htop2
    constructor
    · rw [show ta1 = ⊤ from htop2, add_top]
    · rw [h, top_add]
  rw [obc_eval hdest h1 h2 h3 h4]
  by_cases c1 : tj1 = ⊤
  · rw [if_pos c1]
    exact iff_of_false (fun h => ArbOutcome.noConfusion h)
      (fun h => h.1 (hg1 c1))
  · rw [if_neg c1]
    by_cases c2 : ta2 = ⊤
    · rw [if_pos c2]
      exact iff_of_false (fun h => ArbOutcome.noConfusion h)
        (fun h => h.1 (hg2 c2))
    · rw [if_neg c2]
      by_cases c3 : tj1 + ta1 = ⊤ ∧ ta2 + tj2 = ⊤
      · rw [if_pos c3]
        exact iff_of_false (fun h => ArbOutcome.noConfusion h)
          (fun h => h.1 c3)
      · rw [if_neg c3]
        by_cases c4 : tj1 + ta1 ≤ ta2 + tj2
        · rw [if_pos c4, if_pos c4]
          constructor
          · intro h
            exact ⟨c3, (ArbOutcome.ok.inj h).symm⟩
          · rintro ⟨-, rfl⟩
            rfl
        · rw [if_neg c4, if_neg c4]
          constructor
          · intro h
            exact ⟨c3, (ArbOutcome.ok.inj h).symm⟩
          · rintro ⟨-, rfl⟩
            rfl

theorem getPathCost_routeResult_full {g : Graph} {s dest : Node}
    {rj : List Node} {tj : Cost} (hwf : g.WF) (hdest : dest ∈ g.nodes)
    (h : routeResult g s dest = (rj, tj)) (hne : tj ≠ ⊤) :
    get_path_cost_from_original_graph g rj = tj := by
  obtain ⟨n, hn⟩ := cost_ne_top_exists hne
  have hfind : find_shortest_path_dijkstra g s dest = .ok (rj, ((n : ℕ) : Cost)) := by
    rw [find_eq_ok_routeResult hdest, h, hn]
  obtain ⟨hwalk, hwt, -⟩ := find_finite_spec hwf hfind
  rw [getPathCost_eq_walkWeight hwalk.chain', hwt, hn]

theorem getPathCost_routeResult_reduced {g : Graph} {q : List Node}
    {s dest : Node} {ra : List Node} {ta : Cost} (hwf : g.WF)
    (hdest : dest ∈ g.nodes)
    (h : routeResult (reduceGraph g q) s dest = (ra, ta)) (hne : ta ≠ ⊤) :
    get_path_cost_from_original_graph g ra = ta := by
  obtain ⟨n, hn⟩ := cost_ne_top_exists hne
  have hdest' : dest ∈ (reduceGraph g q).nodes := by
    rw [reduceGraph_nodes]
    exact hdest
  have hfind : find_shortest_path_dijkstra (reduceGraph g q) s dest =
      .ok (ra, ((n : ℕ) : Cost)) := by
    rw [find_eq_ok_routeResult hdest', h, hn]
  obtain ⟨hwalk, hwt, -⟩ := find_finite_spec (reduceGraph_WF hwf q) hfind
  have hchain : ra.Chain' g.hasEdge :=
    hwalk.chain'.imp (fun a b hab => (reduceGraph_hasEdge.mp hab).1)
  rw [getPathCost_eq_walkWeight hchain, ← walkWeight_reduced_eq ra hwalk.chain',
    hwt, hn]

/-- C1: for every well-formed graph with finite natural edge weights and
every source and target node present in the graph such that the target is
reachable from the source, `find_shortest_path_dijkstra` returns a path
whose total cost is minimal among all paths (adjacent node sequences) from
source to target; the early break on extracting the target is part of the
verified loop, so it does not change this minimal cost. -/
theorem claim_C1_dijkstra_minimal (g : Graph) (s t : Node) (hwf : g.WF)
    (hs : s ∈ g.nodes) (ht : t ∈ g.nodes) (hr : Reachable g s t) :
    ∃ (p : List Node) (n : ℕ),
      find_shortest_path_dijkstra g s t = .ok (p, (n : Cost)) ∧
        IsWalk g s t p ∧ walkWeight g p = n ∧
        ∀ q, IsWalk g s t q → n ≤ walkWeight g q := by
  obtain ⟨p, n, hfind, hw, hwt, hmin⟩ := find_reachable hwf hs hr
  exact ⟨p, n, hfind, hw.isWalk, hwt, fun q hq => hmin q (walkTo_of_isWalk hq)⟩

theorem claim_C1_witness :
    ∃ (p : List Node) (n : ℕ),
      find_shortest_path_dijkstra ⟨[0, 1], [(0, 1, 5)]⟩ 0 1 = .ok (p, (n : Cost)) ∧
        IsWalk ⟨[0, 1], [(0, 1, 5)]⟩ 0 1 p ∧
        walkWeight ⟨[0, 1], [(0, 1, 5)]⟩ p = n ∧
        ∀ q, IsWalk ⟨[0, 1], [(0, 1, 5)]⟩ 0 1 q →
          n ≤ walkWeight ⟨[0, 1], [(0, 1, 5)]⟩ q :=
  claim_C1_dijkstra_minimal ⟨[0, 1], [(0, 1, 5)]⟩ 0 1 (by decide) (by decide)
    (by decide) ⟨[0, 1], by decide⟩

/-- C2: for every routing request (destination a graph node) in which at
least one scenario total is finite, the arbitration succeeds and selects
the scenario by the source's condition `total1 <= total2`: Scenario 1
(Javier first) exactly when its total is at most Scenario 2's, so equal
totals select Scenario 1. -/
theorem claim_C2_scenario_selection (g : Graph) (cJ cA dest : Node)
    (hwf : g.WF) (hdest : dest ∈ g.nodes)
    (hfin : escenario1Total g cJ cA dest ≠ ⊤ ∨
      escenario2Total g cJ cA dest ≠ ⊤) :
    ∃ r, on_button_click g cJ cA dest = .ok r ∧
      r.escenario =
        (if escenario1Total g cJ cA dest ≤ escenario2Total g cJ cA dest
          then Escenario.uno else Escenario.dos) := by
  rcases h1 : routeResult g cJ dest with ⟨rj1, tj1⟩
  rcases h2 : routeResult (reduceGraph g rj1) cA dest with ⟨ra1, ta1⟩
  rcases h3 : routeResult g cA dest with ⟨ra2, ta2⟩
  rcases h4 : routeResult (reduceGraph g ra2) cJ dest with ⟨rj2, tj2⟩
  have hT1 := escenario1Total_eq h1 h2
  have hT2 := escenario2Total_eq h3 h4
  have hnb : ¬ (tj1 + ta1 = ⊤ ∧ ta2 + tj2 = ⊤) := by
    intro hc
    rcases hfin with hf | hf
    · exact hf (hT1.trans hc.1)
    · exact hf (hT2.trans hc.2)
  refine ⟨_, (obc_ok_iff hwf hdest h1 h2 h3 h4 _).mpr ⟨hnb, rfl⟩, ?_⟩
  rw [hT1, hT2]
  by_cases c : tj1 + ta1 ≤ ta2 + tj2
  · rw [if_pos c, if_pos c]
  · rw [if_neg c, if_neg c]

/-- C3: the reduced graph used by a scenario has exactly the original
graph's edges minus the edges traversed by the first walker's path (an
undirected edge is gone in both directions, since `pathUsesEdge` and
`hasEdge` treat the pair unordered), every retained edge keeps its
original weight record, and the node set is unchanged; the reduction is a
pure function of the original graph, which the model leaves untouched
(mirroring `self.G.copy()` before any `remove_edge`). -/
theorem claim_C3_reduced_graph (g : Graph) (path : List Node) (u v : Node) :
    ((reduceGraph g path).hasEdge u v ↔
      g.hasEdge u v ∧ ¬ pathUsesEdge path u v) ∧
    (¬ pathUsesEdge path u v →
      (reduceGraph g path).weight? u v = g.weight? u v) ∧
    (reduceGraph g path).nodes = g.nodes :=
  ⟨reduceGraph_hasEdge, reduceGraph_weight?, reduceGraph_nodes g path⟩

theorem claim_C3_witness :
    (reduceGraph ⟨[0, 1, 2], [(0, 1, 3), (1, 2, 4)]⟩ [0, 1]).weight? 1 2 =
      Graph.weight? ⟨[0, 1, 2], [(0, 1, 3), (1, 2, 4)]⟩ 1 2 :=
  (claim_C3_reduced_graph ⟨[0, 1, 2], [(0, 1, 3), (1, 2, 4)]⟩ [0, 1] 1 2).2.1
    (by decide)

/-- C4: if the source is absent from the graph's node set, or if source
and target are graph nodes but no path between them exists,
`find_shortest_path_dijkstra` returns the unreachable result (empty path,
infinite cost) as an ordinary value — no exception in either case. -/
theorem claim_C4_unreachable_result (g : Graph) (s t : Node) :
    (s ∉ g.nodes → find_shortest_path_dijkstra g s t = .ok ([], ⊤)) ∧
      (s ∈ g.nodes → t ∈ g.nodes → ¬ Reachable g s t →
        find_shortest_path_dijkstra g s t = .ok ([], ⊤)) :=
  ⟨find_not_mem, fun hs ht hnr => find_unreachable hs ht hnr⟩

theorem claim_C4_witness :
    find_shortest_path_dijkstra ⟨[0, 1], []⟩ 2 1 = .ok ([], ⊤) ∧
      find_shortest_path_dijkstra ⟨[0, 1], []⟩ 0 1 = .ok ([], ⊤) :=
  ⟨(claim_C4_unreachable_result ⟨[0, 1], []⟩ 2 1).1 (by decide),
    (claim_C4_unreachable_result ⟨[0, 1], []⟩ 0 1).2 (by decide) (by decide)
      (not_reachable_no_edges (by decide))⟩

/-- C5: for requests whose destination is a graph node, the arbitration
produces no ArbResult exactly when both scenario totals are infinite; it
has no other failure mode, and whenever at least one scenario total is
finite the request succeeds with a result. -/
theorem claim_C5_failure_iff (g : Graph) (cJ cA dest : Node) (hwf : g.WF)
    (hdest : dest ∈ g.nodes) :
    (∀ r, on_button_click g cJ cA dest ≠ .ok r) ↔
      (escenario1Total g cJ cA dest = ⊤ ∧
        escenario2Total g cJ cA dest = ⊤) := by
  rcases h1 : routeResult g cJ dest with ⟨rj1, tj1⟩
  rcases h2 : routeResult (reduceGraph g rj1) cA dest with ⟨ra1, ta1⟩
  rcases h3 : routeResult g cA dest with ⟨ra2, ta2⟩
  rcases h4 : routeResult (reduceGraph g ra2) cJ dest with ⟨rj2, tj2⟩
  rw [escenario1Total_eq h1 h2, escenario2Total_eq h3 h4]
  constructor
  · intro hno
    by_contra hnb
    exact hno _ ((obc_ok_iff hwf hdest h1 h2 h3 h4 _).mpr ⟨hnb, rfl⟩)
  · intro hboth r hok
    exact ((obc_ok_iff hwf hdest h1 h2 h3 h4 r).mp hok).1 hboth

theorem claim_C5_witness :
    (∀ r, on_button_click ⟨[0], []⟩ 0 0 0 ≠ .ok r) ↔
      (escenario1Total ⟨[0], []⟩ 0 0 0 = ⊤ ∧
        escenario2Total ⟨[0], []⟩ 0 0 0 = ⊤) :=
  claim_C5_failure_iff ⟨[0], []⟩ 0 0 0 (by decide) (by decide)

theorem obc_trivial_eval :
    on_button_click ⟨[0], []⟩ 0 0 0 =
      .ok ⟨.uno, [0], [0], (0 : Cost), (0 : Cost), .together⟩ := by
  have h1 : routeResult ⟨[0], []⟩ 0 0 = ([0], ((0 : ℕ) : Cost)) :=
    routeResult_self (by decide)
  have h2 : routeResult (reduceGraph ⟨[0], []⟩ [0]) 0 0 =
      ([0], ((0 : ℕ) : Cost)) := by
    rw [reduceGraph_single]
    exact routeResult_self (by decide)
  apply (obc_ok_iff (by decide) (by decide) h1 h2 h1 h2 _).mpr
  constructor
  · simp
  · rw [if_pos (le_refl _)]
    have hgp : get_path_cost_from_original_graph ⟨[0], []⟩ [0] = (0 : Cost) := rfl
    rw [hgp]
    have hsync : syncOf (0 : Cost) (0 : Cost) = .together := by
      unfold syncOf
      rw [if_neg (lt_irrefl _), if_neg (lt_irrefl _)]
    rw [hsync]

theorem e1total_trivial : escenario1Total ⟨[0], []⟩ 0 0 0 ≠ ⊤ := by
  have h1 : routeResult ⟨[0], []⟩ 0 0 = ([0], ((0 : ℕ) : Cost)) :=
    routeResult_self (by decide)
  have h2 : routeResult (reduceGraph ⟨[0], []⟩ [0]) 0 0 =
      ([0], ((0 : ℕ) : Cost)) := by
    rw [reduceGraph_single]
    exact routeResult_self (by decide)
  rw [escenario1Total_eq h1 h2]
  simp

theorem claim_C2_witness :
    ∃ r, on_button_click ⟨[0], []⟩ 0 0 0 = .ok r ∧
      r.escenario =
        (if escenario1Total ⟨[0], []⟩ 0 0 0 ≤ escenario2Total ⟨[0], []⟩ 0 0 0
          then Escenario.uno else Escenario.dos) :=
  claim_C2_scenario_selection ⟨[0], []⟩ 0 0 0 (by decide) (by decide)
    (Or.inl e1total_trivial)

/-- C6: on every successful arbitration the synchronization directive
compares the two final recomputed costs: the walker with the strictly
larger cost departs first and the other waits exactly the difference
(`costSub`, the code's subtraction); equal costs mean both depart
together. -/
theorem claim_C6_sync_directive (g : Graph) (cJ cA dest : Node)
    (r : ArbResult) (hwf : g.WF) (hdest : dest ∈ g.nodes)
    (hok : on_button_click g cJ cA dest = .ok r) :
    (r.tiempoA < r.tiempoJ →
      r.sync = .javierFirst (costSub r.tiempoJ r.tiempoA)) ∧
    (r.tiempoJ < r.tiempoA →
      r.sync = .andreinaFirst (costSub r.tiempoA r.tiempoJ)) ∧
    (r.tiempoJ = r.tiempoA → r.sync = .together) := by
  rcases h1 : routeResult g cJ dest with ⟨rj1, tj1⟩
  rcases h2 : routeResult (reduceGraph g rj1) cA dest with ⟨ra1, ta1⟩
  rcases h3 : routeResult g cA dest with ⟨ra2, ta2⟩
  rcases h4 : routeResult (reduceGraph g ra2) cJ dest with ⟨rj2, tj2⟩
  obtain ⟨-, hr⟩ := (obc_ok_iff hwf hdest h1 h2 h3 h4 r).mp hok
  have hsync : r.sync = syncOf r.tiempoJ r.tiempoA := by
    by_cases c : tj1 + ta1 ≤ ta2 + tj2
    · rw [hr, if_pos c]
    · rw [hr, if_neg c]
  rw [hsync]
  exact syncOf_spec r.tiempoJ r.tiempoA

theorem claim_C6_witness :
    (⟨Escenario.uno, [0], [0], (0 : Cost), (0 : Cost),
      Sync.together⟩ : ArbResult).sync = Sync.together :=
  (claim_C6_sync_directive ⟨[0], []⟩ 0 0 0 _ (by decide) (by decide)
    obc_trivial_eval).2.2 rfl

/-- C7: on every successful arbitration the reported final costs are by
construction the re-summation of the chosen paths' edge weights over the
original (unreduced) graph, and they coincide with the costs the selected
scenario's Dijkstra runs produced for those same paths (full-graph run for
the first walker, reduced-graph run for the second). -/
theorem claim_C7_recompute_consistent (g : Graph) (cJ cA dest : Node)
    (r : ArbResult) (hwf : g.WF) (hdest : dest ∈ g.nodes)
    (hok : on_button_click g cJ cA dest = .ok r) :
    r.tiempoJ = get_path_cost_from_original_graph g r.rutaJ ∧
    r.tiempoA = get_path_cost_from_original_graph g r.rutaA ∧
    (r.escenario = .uno →
      r.tiempoJ = (escenario1 g cJ cA dest).1.2 ∧
        r.tiempoA = (escenario1 g cJ cA dest).2.2) ∧
    (r.escenario = .dos →
      r.tiempoJ = (escenario2 g cJ cA dest).2.2 ∧
        r.tiempoA = (escenario2 g cJ cA dest).1.2) := by
  rcases h1 : routeResult g cJ dest with ⟨rj1, tj1⟩
  rcases h2 : routeResult (reduceGraph g rj1) cA dest with ⟨ra1, ta1⟩
  rcases h3 : routeResult g cA dest with ⟨ra2, ta2⟩
  rcases h4 : routeResult (reduceGraph g ra2) cJ dest with ⟨rj2, tj2⟩
  have hE1 := escenario1_eq h1 h2
  have hE2 := escenario2_eq h3 h4
  obtain ⟨hnb, hr⟩ := (obc_ok_iff hwf hdest h1 h2 h3 h4 r).mp hok
  by_cases c : tj1 + ta1 ≤ ta2 + tj2
  · rw [if_pos c] at hr
    have ht1 : tj1 + ta1 ≠ ⊤ := by
      intro hT
      exact hnb ⟨hT, top_le_iff.mp (hT ▸ c)⟩
    obtain ⟨htj1, hta1⟩ := WithTop.add_ne_top.mp ht1
    have hgJ := getPathCost_routeResult_full hwf hdest h1 htj1
    have hgA := getPathCost_routeResult_reduced hwf hdest h2 hta1
    subst hr
    refine ⟨rfl, rfl, ?_, ?_⟩
    · intro _
      rw [hE1]
      exact ⟨hgJ, hgA⟩
    · intro hcontra
      exact Escenario.noConfusion hcontra
  · rw [if_neg c] at hr
    have ht2 : ta2 + tj2 ≠ ⊤ := fun hT => c (hT ▸ le_top)
    obtain ⟨hta2, htj2⟩ := WithTop.add_ne_top.mp ht2
    have hgJ := getPathCost_routeResult_reduced hwf hdest h4 htj2
    have hgA := getPathCost_routeResult_full hwf hdest h3 hta2
    subst hr
    refine ⟨rfl, rfl, ?_, ?_⟩
    · intro hcontra
      exact Escenario.noConfusion hcontra
    · intro _
      rw [hE2]
      exact ⟨hgJ, hgA⟩

theorem claim_C7_witness :
    (⟨Escenario.uno, [0], [0], (0 : Cost), (0 : Cost),
        Sync.together⟩ : ArbResult).tiempoJ =
      get_path_cost_from_original_graph ⟨[0], []⟩
        (⟨Escenario.uno, [0], [0], (0 : Cost), (0 : Cost),
          Sync.together⟩ : ArbResult).rutaJ :=
  (claim_C7_recompute_consistent ⟨[0], []⟩ 0 0 0 _ (by decide) (by decide)
    obc_trivial_eval).1

/-- C8: for every graph and every node `s` of the graph,
`find_shortest_path_dijkstra g s s` returns the single-element path `[s]`
with cost 0. -/
theorem claim_C8_self_route (g : Graph) (s : Node) (hs : s ∈ g.nodes) :
    find_shortest_path_dijkstra g s s = .ok ([s], ((0 : ℕ) : Cost)) :=
  find_self hs

theorem claim_C8_witness :
    find_shortest_path_dijkstra ⟨[7], []⟩ 7 7 = .ok ([7], ((0 : ℕ) : Cost)) :=
  claim_C8_self_route ⟨[7], []⟩ 7 (by decide)

/-- C9: whenever `find_shortest_path_dijkstra` returns a finite cost, the
returned path is non-empty, starts at the source, ends at the target, has
every consecutive pair adjacent in the input graph, and the returned cost
equals the sum of the traversed edge weights. -/
theorem claim_C9_path_wellformed (g : Graph) (s t : Node) (p : List Node)
    (n : ℕ) (hwf : g.WF)
    (h : find_shortest_path_dijkstra g s t = .ok (p, (n : Cost))) :
    p ≠ [] ∧ p.head? = some s ∧ p.getLast? = some t ∧
      p.Chain' g.hasEdge ∧ walkWeight g p = n := by
  obtain ⟨hw, hwt, -⟩ := find_finite_spec hwf h
  exact ⟨hw.ne_nil, hw.head?, hw.getLast?, hw.chain', hwt⟩

theorem claim_C9_witness :
    [0] ≠ ([] : List Node) ∧ ([0] : List Node).head? = some 0 ∧
      ([0] : List Node).getLast? = some 0 ∧
      List.Chain' (Graph.hasEdge ⟨[0], []⟩) [0] ∧
      walkWeight ⟨[0], []⟩ [0] = 0 :=
  claim_C9_path_wellformed ⟨[0], []⟩ 0 0 [0] 0 (by decide)
    (find_self (by decide))

/-- C10: the permissive absent-endpoint handling covers only the source:
for a source present in the graph and a target absent from the node set,
`find_shortest_path_dijkstra` raises a KeyError (modelled `.error ()`)
when it reads `distances[end]` after the search loop instead of returning
the unreachable sentinel, so the function is not total over arbitrary node
arguments. -/
theorem claim_C10_keyerror_absent_target (g : Graph) (s t : Node)
    (hs : s ∈ g.nodes) (ht : t ∉ g.nodes) :
    find_shortest_path_dijkstra g s t = .error () :=
  find_keyError hs ht

theorem claim_C10_witness :
    find_shortest_path_dijkstra ⟨[0], []⟩ 0 1 = .error () :=
  claim_C10_keyerror_absent_target ⟨[0], []⟩ 0 1 (by decide) (by decide)
